import Mathlib

set_option maxRecDepth 100000

/-!
Shallow embedding of `patent_parse/parser.py` (abstract-extraction pipeline)
over `List Char`, together with proofs settling the frozen claims about it.

Strings are modelled as `List Char`; Python regex constructs are translated
into deterministic character scanners.  Where a Python regex is used only on
single lines (never containing a newline, because lines come from
`text.split('\n')`), this is noted at the definition.  Character classes
(`\s`, `\w`, `[a-z]`, `islower`, ...) are modelled at the ASCII level, which
matches every input the claims quantify over.
-/

/-- Model of Python `\s` at the ASCII level: the six whitespace characters
`' '`, `'\t'`, `'\n'`, `'\r'`, `'\x0b'`, `'\x0c'`. -/
def isPySpace (c : Char) : Bool :=
  c = ' ' || c = '\t' || c = '\n' || c = '\r' || c = '\x0b' || c = '\x0c'

/-- Model of Python regex `\w` (ASCII): letters, digits, underscore. -/
def wordChar (c : Char) : Bool :=
  c.isAlphanum || c = '_'

/-- The punctuation class `[,;.!?]` used by the parser's regexes. -/
def isPunctChar (c : Char) : Bool :=
  c = ',' || c = ';' || c = '.' || c = '!' || c = '?'

/-- Case-insensitive literal prefix match: `dropPrefixCI pat l` returns the
remainder of `l` after the prefix matching `pat` (given lowercased), or
`none`.  Models matching a literal with `re.IGNORECASE` (ASCII folding). -/
def dropPrefixCI : List Char → List Char → Option (List Char)
  | [], l => some l
  | _ :: _, [] => none
  | p :: ps, c :: cs => if c.toLower = p then dropPrefixCI ps cs else none

/-- Model of Python `text.split('\n')`: the (nonempty) list of newline-free
segments, with empty segments preserved, as in Python. -/
def splitNl : List Char → List (List Char)
  | [] => [[]]
  | c :: cs =>
    if c = '\n' then [] :: splitNl cs
    else
      match splitNl cs with
      | l :: ls => (c :: l) :: ls
      | [] => [[c]]

/-- Removes the trailing run of Python whitespace (right half of `str.strip`). -/
def dropTrailingWs : List Char → List Char
  | [] => []
  | c :: cs =>
    let r := dropTrailingWs cs
    if r.isEmpty && isPySpace c then [] else c :: r

/-- Model of Python `line.strip()`: drop leading and trailing whitespace. -/
def stripWs (l : List Char) : List Char :=
  dropTrailingWs (l.dropWhile isPySpace)

/-!
### Heading locator / section slicer

`_find_abstract_section` (parser.py:50-64) searches `\bABSTRACT\b`
case-insensitively and returns the text after the end of the first match.
-/

/-- Tries to match `ABSTRACT\b` (case-insensitive) at the head of `l`,
returning the remainder after the match.  The trailing `\b` requires the
next character (if any) to be a non-word character. -/
def abstractAt (l : List Char) : Option (List Char) :=
  match dropPrefixCI [ 'a', 'b', 's', 't', 'r', 'a', 'c', 't'] l with
  | some r =>
    match r with
    | [] => some []
    | c :: _ => if wordChar c then none else some r
  | none => none

/-- Scanner for `re.search(r'\bABSTRACT\b', text, re.IGNORECASE)`:
`prev` is the character before the current position (for the leading `\b`). -/
def findAbsAux : Option Char → List Char → Option (List Char)
  | _, [] => none
  | prev, c :: cs =>
    if (match prev with | none => true | some p => !wordChar p) then
      match abstractAt (c :: cs) with
      | some r => some r
      | none => findAbsAux (some c) cs
    else findAbsAux (some c) cs

/-- Embedding of `_find_abstract_section` (parser.py:50-64): text after the
first case-insensitive whole-word `ABSTRACT`, or `none`. -/
def find_abstract_section (t : List Char) : Option (List Char) :=
  findAbsAux none t

/-!
### Stop conditions (`_should_stop_collecting`, parser.py:67-93)
-/

/-- Matches `Claims?\s*,` (case-insensitive) at the head of `m`: the literal
`claim`, an optional `s`, optional whitespace, then a comma.  The optional
`s` is deterministic: if present it must be consumed, since `\s*,` cannot
start with `s`. -/
def claimsCommaCore (m : List Char) : Bool :=
  match dropPrefixCI [ 'c', 'l', 'a', 'i', 'm'] m with
  | some r =>
    let r2 := match r with
              | c :: cs => if c.toLower = 's' then cs else c :: cs
              | [] => []
    match r2.dropWhile isPySpace with
    | ',' :: _ => true
    | _ => false
  | none => false

/-- Embedding of `re.match(r'^(\d+\s+)?Claims?\s*,', line, re.IGNORECASE)`.
The optional group is deterministic: if the line starts with a digit the
group must match (digits then at least one space), since `Claims` cannot
start with a digit. -/
def stopClaimsComma (l : List Char) : Bool :=
  match l with
  | c :: _ =>
    if c.isDigit then
      let r := l.dropWhile Char.isDigit
      let sp := r.takeWhile isPySpace
      if sp.isEmpty then false else claimsCommaCore (r.dropWhile isPySpace)
    else claimsCommaCore l
  | [] => false

/-- Embedding of the section-header prefixes
`^(FIELD|BACKGROUND|BRIEF DESCRIPTION|DETAILED DESCRIPTION)` (ci). -/
def stopSectionHeader (l : List Char) : Bool :=
  (dropPrefixCI [ 'f', 'i', 'e', 'l', 'd'] l).isSome ||
  (dropPrefixCI [ 'b', 'a', 'c', 'k', 'g', 'r', 'o', 'u', 'n', 'd'] l).isSome ||
  (dropPrefixCI [ 'b', 'r', 'i', 'e', 'f', ' ', 'd', 'e', 's', 'c', 'r', 'i', 'p', 't', 'i', 'o', 'n'] l).isSome ||
  (dropPrefixCI [ 'd', 'e', 't', 'a', 'i', 'l', 'e', 'd', ' ', 'd', 'e', 's', 'c', 'r', 'i', 'p', 't', 'i', 'o', 'n'] l).isSome

/-- Embedding of `re.match(r'^References Cited', line, re.IGNORECASE)`. -/
def stopReferencesCited (l : List Char) : Bool :=
  (dropPrefixCI [ 'r', 'e', 'f', 'e', 'r', 'e', 'n', 'c', 'e', 's', ' ', 'c', 'i', 't', 'e', 'd'] l).isSome

/-- Embedding of `re.match(r'^\(\s*\d+\s*\)', line)`: a leading parenthesized
number such as `(51)`. -/
def parenNumStart (l : List Char) : Bool :=
  match l with
  | '(' :: r =>
    let r1 := r.dropWhile isPySpace
    let ds := r1.takeWhile Char.isDigit
    if ds.isEmpty then false
    else
      match (r1.dropWhile Char.isDigit).dropWhile isPySpace with
      | ')' :: _ => true
      | _ => false
  | _ => false

/-- Match of `\d+\s+Claims?\s*,\s*\d+\s+Drawing\s+Sheets?` (ci) anchored at
the head of `l`.  All adjacent character classes are disjoint, so greedy
matching is deterministic; the trailing `s?` always succeeds and is
omitted. -/
def drawingSheetsAt (l : List Char) : Bool :=
  let ds := l.takeWhile Char.isDigit
  if ds.isEmpty then false else
  let r1 := l.dropWhile Char.isDigit
  let sp1 := r1.takeWhile isPySpace
  if sp1.isEmpty then false else
  match dropPrefixCI [ 'c', 'l', 'a', 'i', 'm'] (r1.dropWhile isPySpace) with
  | none => false
  | some r2 =>
    let r3 := match r2 with
              | c :: cs => if c.toLower = 's' then cs else c :: cs
              | [] => []
    match r3.dropWhile isPySpace with
    | ',' :: r4 =>
      let r5 := r4.dropWhile isPySpace
      let ds2 := r5.takeWhile Char.isDigit
      if ds2.isEmpty then false else
      let r6 := r5.dropWhile Char.isDigit
      let sp2 := r6.takeWhile isPySpace
      if sp2.isEmpty then false else
      match dropPrefixCI [ 'd', 'r', 'a', 'w', 'i', 'n', 'g'] (r6.dropWhile isPySpace) with
      | none => false
      | some r7 =>
        let sp3 := r7.takeWhile isPySpace
        if sp3.isEmpty then false else
        (dropPrefixCI [ 's', 'h', 'e', 'e', 't'] (r7.dropWhile isPySpace)).isSome
    | _ => false

/-- Embedding of `re.search(r'\d+\s+Claims?\s*,\s*\d+\s+Drawing\s+Sheets?', line, re.IGNORECASE)`:
the anchored matcher tried at every suffix. -/
def hasDrawingSheets (l : List Char) : Bool :=
  l.tails.any drawingSheetsAt

/-- Embedding of `_should_stop_collecting` (parser.py:67-93). -/
def should_stop_collecting (l : List Char) : Bool :=
  stopClaimsComma l || stopSectionHeader l || stopReferencesCited l ||
  parenNumStart l || hasDrawingSheets l

/-!
### Noise conditions (`_is_noise_line`, parser.py:96-163)

Each rule of the Python function is a separate definition, in source order;
`is_noise_line` is their disjunction (the Python `if ... return True` chain).
-/

/-- Rule `^\d+[Oo]f\s+\d+`: classification codes such as `32Of 138`. -/
def noiseDigitsOf (l : List Char) : Bool :=
  let ds := l.takeWhile Char.isDigit
  if ds.isEmpty then false else
  match l.dropWhile Char.isDigit with
  | o :: 'f' :: r =>
    (o = 'O' || o = 'o') &&
    (let sp := r.takeWhile isPySpace
     !sp.isEmpty &&
     (match r.dropWhile isPySpace with
      | d :: _ => d.isDigit
      | [] => false))
  | _ => false

/-- Rule `^\d+/\d+`: codes such as `320/109`. -/
def noiseDigitsSlash (l : List Char) : Bool :=
  let ds := l.takeWhile Char.isDigit
  if ds.isEmpty then false else
  match l.dropWhile Char.isDigit with
  | '/' :: d :: _ => d.isDigit
  | _ => false

/-- Rule `^[A-Z]{1,4}\d+[A-Z]?\s+\d`: class codes such as `B60L 50/64`.
`[A-Z]{1,4}` is deterministic against the following `\d+`: the leading
uppercase run must have length 1-4 and be followed by a digit.  The optional
uppercase after the digits must be consumed when present (otherwise `\s+`
fails on it anyway). -/
def noiseClassCode (l : List Char) : Bool :=
  let us := l.takeWhile Char.isUpper
  if us.isEmpty || decide (us.length > 4) then false else
  let r1 := l.dropWhile Char.isUpper
  let ds := r1.takeWhile Char.isDigit
  if ds.isEmpty then false else
  let r2 := r1.dropWhile Char.isDigit
  let r3 := match r2 with
            | c :: cs => if c.isUpper then cs else c :: cs
            | [] => []
  let sp := r3.takeWhile isPySpace
  !sp.isEmpty &&
  (match r3.dropWhile isPySpace with
   | d :: _ => d.isDigit
   | [] => false)

/-- Rule `re.match(r'^[\d\s\-\(\)]+$', line) and len(line) > 3`: lines made
only of digits, whitespace, hyphens and parentheses, longer than 3. -/
def noiseDigitsBlock (l : List Char) : Bool :=
  decide (l.length > 3) &&
  l.all (fun c => c.isDigit || isPySpace c || c = '-' || c = '(' || c = ')')

/-- Rule `line.count('.') > 5`. -/
def noiseManyDots (l : List Char) : Bool :=
  decide (l.count '.' > 5)

/-- Match of `Page\s+\d+` (ci) anchored at the head: used both by the noise
rule (as a search) and by `^Page\s+\d+` matches in the continuation logic. -/
def pageMarkerAt (l : List Char) : Bool :=
  match dropPrefixCI [ 'p', 'a', 'g', 'e'] l with
  | some r =>
    let sp := r.takeWhile isPySpace
    !sp.isEmpty &&
    (match r.dropWhile isPySpace with
     | d :: _ => d.isDigit
     | [] => false)
  | none => false

/-- Rule `re.search(r'Page\s+\d+', line, re.IGNORECASE)`. -/
def noisePageMarker (l : List Char) : Bool :=
  l.tails.any pageMarkerAt

/-- Rule `re.search(r'search history', line, re.IGNORECASE)`. -/
def noiseSearchHistory (l : List Char) : Bool :=
  l.tails.any (fun t =>
    (dropPrefixCI [ 's', 'e', 'a', 'r', 'c', 'h', ' ', 'h', 'i', 's', 't', 'o', 'r', 'y'] t).isSome)

/-- Rule `len(line) <= 2`. -/
def noiseShort (l : List Char) : Bool :=
  decide (l.length ≤ 2)

/-- Rule `line in ['Cited', 'CITED', 'OCUMENTS', 'DOCUMENTS', 'ed', 'ued']`. -/
def noiseFixedToken (l : List Char) : Bool :=
  l = "Cited".toList || l = "CITED".toList || l = "OCUMENTS".toList ||
  l = "DOCUMENTS".toList || l = "ed".toList || l = "ued".toList

/-- Match of `et\s+al\.?\b` (ci) anchored at the head.  The trailing `\b`
holds exactly when the remainder is empty or starts with a non-word
character: if a literal `.` follows `al` the pattern matches whether or not
`\.?` consumes it, and `.` is itself a non-word character. -/
def etAlAt (l : List Char) : Bool :=
  match dropPrefixCI [ 'e', 't'] l with
  | some r =>
    let sp := r.takeWhile isPySpace
    if sp.isEmpty then false else
    match dropPrefixCI [ 'a', 'l'] (r.dropWhile isPySpace) with
    | some r2 =>
      match r2 with
      | [] => true
      | c :: _ => !wordChar c
    | none => false
  | none => false

/-- Rule `re.search(r'\bet\s+al\.?\b', line, re.IGNORECASE)`: the anchored
matcher tried at every position whose preceding character (tracked in
`prev`) is absent or a non-word character (the leading `\b`; `e` itself is a
word character). -/
def searchEtAl : Option Char → List Char → Bool
  | _, [] => false
  | prev, c :: cs =>
    ((match prev with | none => true | some p => !wordChar p) && etAlAt (c :: cs)) ||
    searchEtAl (some c) cs

/-- Rule `re.search(r'\bet\s+al\.?\b', line, re.IGNORECASE)`. -/
def noiseEtAl (l : List Char) : Bool :=
  searchEtAl none l

/-- Match of `,\s+(Jr\.?|Sr\.?)\s*$` (ci) anchored at the head.  The final
`\s*$` holds exactly when everything after the optional dot is whitespace
(Python's `$` before a final newline is subsumed: `\n` is whitespace). -/
def jrSrAt (l : List Char) : Bool :=
  match l with
  | ',' :: r =>
    let sp := r.takeWhile isPySpace
    if sp.isEmpty then false else
    match r.dropWhile isPySpace with
    | a :: b :: r2 =>
      ((a.toLower = 'j' || a.toLower = 's') && b.toLower = 'r') &&
      (let r3 := match r2 with
                 | '.' :: t => t
                 | t => t
       (r3.dropWhile isPySpace).isEmpty)
    | _ => false
  | _ => false

/-- Rule `re.search(r',\s+(Jr\.?|Sr\.?)\s*$', line, re.IGNORECASE)`. -/
def noiseJrSr (l : List Char) : Bool :=
  l.tails.any jrSrAt

/-- Model of Python `str.islower()` at the ASCII level: at least one cased
character and no uppercase character. -/
def pyIsLower (l : List Char) : Bool :=
  l.any Char.isLower && l.all (fun c => !c.isUpper)

/-- Rule `len(line) < 20 and line.islower()`. -/
def noiseShortLower (l : List Char) : Bool :=
  decide (l.length < 20) && pyIsLower l

/-- Rule `^[a-z]{2,8}\'[a-z]\'\.\"?\s*\d+`: garbled OCR tokens such as
`coni'i'. 123`.  `[a-z]{2,8}` is deterministic against the following
apostrophe: the leading lowercase run must have length 2-8. -/
def noiseGarbled (l : List Char) : Bool :=
  let ls := l.takeWhile Char.isLower
  if decide (ls.length < 2) || decide (ls.length > 8) then false else
  match l.dropWhile Char.isLower with
  | '\'' :: c :: '\'' :: '.' :: r =>
    c.isLower &&
    (let r1 := match r with
               | '"' :: t => t
               | t => t
     match r1.dropWhile isPySpace with
     | d :: _ => d.isDigit
     | [] => false)
  | _ => false

/-- Rule `len(line) < 25 and re.match(r'^[A-Z][a-z]+$', line)`: a single
capitalized word.  Python's `$` also matches just before a single final
newline, so one trailing `'\n'` is tolerated. -/
def noiseCapWord (l : List Char) : Bool :=
  decide (l.length < 25) &&
  (let b := match l.getLast? with
            | some '\n' => l.dropLast
            | _ => l
   match b with
   | c :: rest => c.isUpper && !rest.isEmpty && rest.all Char.isLower
   | [] => false)

/-- Three consecutive lowercase letters at the head. -/
def lowerTripleHead : List Char → Bool
  | a :: b :: c :: _ => a.isLower && b.isLower && c.isLower
  | _ => false

/-- After a first lowercase triple, scans `.*[a-z]{3,}`: a later lowercase
triple with no newline in between (`.` does not match `\n`). -/
def afterTripleOk : List Char → Bool
  | [] => false
  | c :: cs => lowerTripleHead (c :: cs) || (c ≠ '\n' && afterTripleOk cs)

/-- Embedding of `re.search(r'[a-z]{3,}.*[a-z]{3,}', line)`: two
non-overlapping lowercase triples, no newline between them. -/
def searchTwoTriples : List Char → Bool
  | a :: b :: c :: rest =>
    (a.isLower && b.isLower && c.isLower && afterTripleOk rest) ||
    searchTwoTriples (b :: c :: rest)
  | _ => false

/-- Rule (parser.py:154-157): `len(line) < 20 and line.count(' ') <= 2 and
re.match(r'^[A-Z]', line)` and NOT `re.search(r'[a-z]{3,}.*[a-z]{3,}', line)`:
short capitalized phrases without two long lowercase runs. -/
def noiseShortCapPhrase (l : List Char) : Bool :=
  decide (l.length < 20) && decide (l.count ' ' ≤ 2) &&
  (match l with
   | c :: _ => c.isUpper
   | [] => false) &&
  !searchTwoTriples l

/-- Rule `line.count('?') > 2 or line.count('???') > 0`. -/
def noiseQuestionMarks (l : List Char) : Bool :=
  decide (l.count '?' > 2) || decide ("???".toList <:+: l)

/-- Embedding of `_is_noise_line` (parser.py:96-163): the disjunction of all
rules, in source order. -/
def is_noise_line (l : List Char) : Bool :=
  noiseDigitsOf l || noiseDigitsSlash l || noiseClassCode l ||
  noiseDigitsBlock l || noiseManyDots l || noisePageMarker l ||
  noiseSearchHistory l || noiseShort l || noiseFixedToken l ||
  noiseEtAl l || noiseJrSr l || noiseShortLower l || noiseGarbled l ||
  noiseCapWord l || noiseShortCapPhrase l || noiseQuestionMarks l

/-!
### Continuation handling (`_handle_continued_marker`, parser.py:166-180,
`_should_resume_after_continued`, parser.py:183-201)
-/

/-- Match of `\(\s*Continued\s*\)` (ci) anchored at the head of `l`,
returning the remainder after the closing parenthesis.  `\s*` is
deterministic against the following letter / parenthesis. -/
def continuedAt (l : List Char) : Option (List Char) :=
  match l with
  | '(' :: r =>
    match dropPrefixCI [ 'c', 'o', 'n', 't', 'i', 'n', 'u', 'e', 'd'] (r.dropWhile isPySpace) with
    | some r2 =>
      match r2.dropWhile isPySpace with
      | ')' :: rest => some rest
      | _ => none
    | none => none
  | _ => none

/-- Splits `l` at the first `\(\s*Continued\s*\)` (ci) match, returning the
text before the match, or `none` when there is no match. -/
def splitAtContinued : List Char → Option (List Char)
  | [] => none
  | c :: cs =>
    if (continuedAt (c :: cs)).isSome then some []
    else
      match splitAtContinued cs with
      | some pre => some (c :: pre)
      | none => none

/-- Embedding of `_handle_continued_marker` (parser.py:166-180).  On a match,
`re.sub(r'\(\s*Continued\s*\).*', '', line)` removes the marker and
everything after it (lines contain no newline, so `.*` runs to the end of
the line) and the remainder is stripped; an empty remainder becomes `none`
(Python's falsy-string check). -/
def handle_continued_marker (l : List Char) : Option (List Char) × Bool :=
  match splitAtContinued l with
  | some pre =>
    let cl := stripWs pre
    (if cl.isEmpty then none else some cl, true)
  | none => (some l, false)

/-- Embedding of `_should_resume_after_continued` (parser.py:183-201): a line
starting with a lowercase letter and longer than 30 characters, or a line
matching `^Page\s+\d+` (ci). -/
def should_resume_after_continued (l : List Char) : Bool :=
  ((match l with
    | c :: _ => c.isLower
    | [] => false) && decide (l.length > 30)) ||
  pageMarkerAt l

/-!
### Line collection (`_collect_abstract_lines`, parser.py:204-254)
-/

/-- The loop body of `_collect_abstract_lines`: `seen` is the
`seen_continued` flag.  Lines are stripped; empty lines are skipped; a
`(Continued)` marker keeps its (nonempty) prefix and sets `seen`; while
`seen`, lines are skipped unless they are resumption lines (a page-marker
resumption is itself skipped); stop lines end collection; noise lines are
skipped; everything else is kept. -/
def collectAux : Bool → List (List Char) → List (List Char)
  | _, [] => []
  | seen, raw :: rest =>
    let line := stripWs raw
    if line.isEmpty then collectAux seen rest
    else
      match handle_continued_marker line with
      | (some cl, true) => cl :: collectAux true rest
      | (none, true) => collectAux true rest
      | (_, false) =>
        if seen then
          if should_resume_after_continued line then
            if pageMarkerAt line then collectAux false rest
            else if should_stop_collecting line then []
            else if is_noise_line line then collectAux false rest
            else line :: collectAux false rest
          else collectAux true rest
        else if should_stop_collecting line then []
        else if is_noise_line line then collectAux false rest
        else line :: collectAux false rest

/-- Embedding of `_collect_abstract_lines` (parser.py:204-254). -/
def collect_abstract_lines (t : List Char) : List (List Char) :=
  collectAux false (splitNl t)

/-!
### Word joining (`_is_split_word`, parser.py:257-288,
`_join_split_words`, parser.py:291-322)
-/

/-- Last character is an ASCII lowercase letter (Python `w[-1].islower()`;
only called on nonempty tokens in the source, `none` maps to `false`). -/
def endsLowerB (w : List Char) : Bool :=
  match w.getLast? with
  | some c => c.isLower
  | none => false

/-- First character is an ASCII lowercase letter (Python `w[0].islower()`). -/
def startsLowerB (w : List Char) : Bool :=
  match w with
  | c :: _ => c.isLower
  | [] => false

/-- Last character is sentence punctuation (`re.search(r'[,;.!?]$', w)`;
tokens are whitespace-free, so `$` is plain end-of-string). -/
def endsPunct (w : List Char) : Bool :=
  match w.getLast? with
  | some c => isPunctChar c
  | none => false

/-- Embedding of `_is_split_word` (parser.py:257-288): fragment+continuation
(case 1) or stem+suffix (case 2). -/
def is_split_word (lastW firstW : List Char) : Bool :=
  (decide (3 ≤ lastW.length) && decide (lastW.length ≤ 4) &&
   decide (4 ≤ firstW.length) && decide (firstW.length ≤ 7) &&
   endsLowerB lastW && startsLowerB firstW && !endsPunct lastW &&
   decide (8 ≤ lastW.length + firstW.length) &&
   decide (lastW.length + firstW.length ≤ 11)) ||
  (decide (lastW.length = 5) && decide (firstW.length = 3) &&
   endsLowerB lastW && startsLowerB firstW && !endsPunct lastW &&
   (firstW = "ing".toList || firstW = "tion".toList || firstW = "ous".toList ||
    firstW = "ent".toList || firstW = "ant".toList || firstW = "ity".toList))

/-- Embedding of `re.search(r'(\S+)\s*$', prev)`: the last whitespace-free
token of `prev`, or `none` if there is none. -/
def lastTokenOf (l : List Char) : Option (List Char) :=
  let r := (l.reverse.dropWhile isPySpace).takeWhile (fun c => !isPySpace c)
  if r.isEmpty then none else some r.reverse

/-- Embedding of `re.match(r'^(\S+)', line)`: the leading whitespace-free
token of `line`, or `none`. -/
def firstTokenOf (l : List Char) : Option (List Char) :=
  let t := l.takeWhile (fun c => !isPySpace c)
  if t.isEmpty then none else some t

/-- Python `' '.join(lines)`. -/
def joinWithSpace : List (List Char) → List Char
  | [] => []
  | [l] => l
  | l :: ls => l ++ ' ' :: joinWithSpace ls

/-- The fold of `_join_split_words`: `acc` is the processed list, reversed.
For each new line, the last token of the previous processed line and the
first token of the new line decide whether the two are concatenated without
a space. -/
def processLinesAux : List (List Char) → List (List Char) → List (List Char)
  | acc, [] => acc.reverse
  | [], line :: rest => processLinesAux [line] rest
  | prev :: tl, line :: rest =>
    match lastTokenOf prev, firstTokenOf line with
    | some lw, some fw =>
      if is_split_word lw fw then processLinesAux ((prev ++ line) :: tl) rest
      else processLinesAux (line :: prev :: tl) rest
    | _, _ => processLinesAux (line :: prev :: tl) rest

/-- Embedding of `_join_split_words` (parser.py:291-322). -/
def join_split_words (lines : List (List Char)) : List Char :=
  joinWithSpace (processLinesAux [] lines)

/-!
### Text normalization (`_clean_abstract_text`, parser.py:325-349)

Each `re.sub` is embedded as a left-to-right scanner.  The scanners for
`\(\s*Continued\s*\)`, `\(\s*\d{4}\.\d{2}\s*\)` and `(\w)\s+-\s+(\w)` are
buffer state machines: a candidate match is buffered and either discarded
(on success) or flushed verbatim (on failure).  Flushing without rescanning
is sound because a buffer's tail can never contain a character that starts a
match (`(` for the first two patterns, a word character for the third); the
current character is re-dispatched, matching Python's resumption of the scan
at the next position after a failed attempt, and on success the scan resumes
after the match, as `re.sub` does.
-/

/-- States of the `\(\s*Continued\s*\)` remover: the buffered candidate
together with the phase of the pattern being matched. -/
inductive CoSt where
  | start : CoSt
  | sp1 : List Char → CoSt
  | word : List Char → List Char → CoSt
  | sp2 : List Char → CoSt

/-- The buffered text of a candidate `(Continued)` match. -/
def coFlush : CoSt → List Char
  | .start => []
  | .sp1 buf => buf
  | .word buf _ => buf
  | .sp2 buf => buf

/-- Scanner for `re.sub(r'\(\s*Continued\s*\)', '', text, flags=re.IGNORECASE)`. -/
def coRun : CoSt → List Char → List Char
  | st, [] => coFlush st
  | .start, c :: cs =>
    if c = '(' then coRun (.sp1 [c]) cs else c :: coRun .start cs
  | .sp1 buf, c :: cs =>
    if isPySpace c then coRun (.sp1 (buf ++ [c])) cs
    else if c.toLower = 'c' then
      coRun (.word (buf ++ [c]) [ 'o', 'n', 't', 'i', 'n', 'u', 'e', 'd']) cs
    else if c = '(' then buf ++ coRun (.sp1 [c]) cs
    else buf ++ c :: coRun .start cs
  | .word buf rem, c :: cs =>
    match rem with
    | r :: rs =>
      if c.toLower = r then
        if rs.isEmpty then coRun (.sp2 (buf ++ [c])) cs
        else coRun (.word (buf ++ [c]) rs) cs
      else if c = '(' then buf ++ coRun (.sp1 [c]) cs
      else buf ++ c :: coRun .start cs
    | [] => buf ++ c :: coRun .start cs
  | .sp2 buf, c :: cs =>
    if isPySpace c then coRun (.sp2 (buf ++ [c])) cs
    else if c = ')' then coRun .start cs
    else if c = '(' then buf ++ coRun (.sp1 [c]) cs
    else buf ++ c :: coRun .start cs

/-- Embedding of `re.sub(r'\(\s*Continued\s*\)', '', text, flags=re.IGNORECASE)`. -/
def removeContinued (l : List Char) : List Char :=
  coRun .start l

/-- States of the `\(\s*\d{4}\.\d{2}\s*\)` remover: buffered candidate plus
phase (`int4 k` / `frac2 k` count the digits still required). -/
inductive DcSt where
  | start : DcSt
  | sp1 : List Char → DcSt
  | int4 : List Char → Nat → DcSt
  | frac2 : List Char → Nat → DcSt
  | sp2 : List Char → DcSt

/-- The buffered text of a candidate date-code match. -/
def dcFlush : DcSt → List Char
  | .start => []
  | .sp1 buf => buf
  | .int4 buf _ => buf
  | .frac2 buf _ => buf
  | .sp2 buf => buf

/-- Scanner for `re.sub(r'\(\s*\d{4}\.\d{2}\s*\)', '', text)`: removes
date-code parentheticals such as `(2014.01)`. -/
def dcRun : DcSt → List Char → List Char
  | st, [] => dcFlush st
  | .start, c :: cs =>
    if c = '(' then dcRun (.sp1 [c]) cs else c :: dcRun .start cs
  | .sp1 buf, c :: cs =>
    if isPySpace c then dcRun (.sp1 (buf ++ [c])) cs
    else if c.isDigit then dcRun (.int4 (buf ++ [c]) 3) cs
    else if c = '(' then buf ++ dcRun (.sp1 [c]) cs
    else buf ++ c :: dcRun .start cs
  | .int4 buf k, c :: cs =>
    if c.isDigit then
      match k with
      | k' + 1 => dcRun (.int4 (buf ++ [c]) k') cs
      | 0 => buf ++ c :: dcRun .start cs
    else if c = '.' && k = 0 then dcRun (.frac2 (buf ++ [c]) 2) cs
    else if c = '(' then buf ++ dcRun (.sp1 [c]) cs
    else buf ++ c :: dcRun .start cs
  | .frac2 buf k, c :: cs =>
    if c.isDigit then
      match k with
      | k' + 1 => dcRun (.frac2 (buf ++ [c]) k') cs
      | 0 => buf ++ c :: dcRun .start cs
    else if isPySpace c && k = 0 then dcRun (.sp2 (buf ++ [c])) cs
    else if c = ')' && k = 0 then dcRun .start cs
    else if c = '(' then buf ++ dcRun (.sp1 [c]) cs
    else buf ++ c :: dcRun .start cs
  | .sp2 buf, c :: cs =>
    if isPySpace c then dcRun (.sp2 (buf ++ [c])) cs
    else if c = ')' then dcRun .start cs
    else if c = '(' then buf ++ dcRun (.sp1 [c]) cs
    else buf ++ c :: dcRun .start cs

/-- Embedding of `re.sub(r'\(\s*\d{4}\.\d{2}\s*\)', '', text)`. -/
def removeDateCode (l : List Char) : List Char :=
  dcRun .start l

/-- Backward matcher for `\(\s*\d+\s*\)` ending at the end of the (reversed)
input: given the reversed text, returns the reversed remainder before the
match.  The match is unique when it exists, since the span between the
parentheses may contain only whitespace and digits. -/
def parenNumRevMatch (r : List Char) : Option (List Char) :=
  match r with
  | ')' :: r1 =>
    let r2 := r1.dropWhile isPySpace
    let ds := r2.takeWhile Char.isDigit
    if ds.isEmpty then none
    else
      match (r2.dropWhile Char.isDigit).dropWhile isPySpace with
      | '(' :: r5 => some r5
      | _ => none
  | _ => none

/-- Embedding of `re.sub(r'\(\s*\d+\s*\)$', '', text)`: removes one trailing
parenthesized number.  Python's `$` also matches just before a final
newline, so a single trailing `'\n'` is looked through (and kept). -/
def stripTrailingParenNum (l : List Char) : List Char :=
  match l.reverse with
  | '\n' :: r =>
    match parenNumRevMatch r with
    | some rem => rem.reverse ++ [ '\n']
    | none => l
  | r =>
    match parenNumRevMatch r with
    | some rem => rem.reverse
    | none => l

/-- Scanner for `re.sub(r'\s+', ' ', text)`: `inRun` records whether the
previous character was whitespace (already emitted as a single space). -/
def collapseWsAux : Bool → List Char → List Char
  | _, [] => []
  | inRun, c :: cs =>
    if isPySpace c then
      if inRun then collapseWsAux true cs else ' ' :: collapseWsAux true cs
    else c :: collapseWsAux false cs

/-- Embedding of `re.sub(r'\s+', ' ', text).strip()`. -/
def collapseAndStrip (l : List Char) : List Char :=
  stripWs (collapseWsAux false l)

/-- Scanner for `re.sub(r'\s+([,;.!?])', r'\1', text)`: `pend` buffers the
current whitespace run, dropped when a punctuation character follows. -/
def puRun : List Char → List Char → List Char
  | pend, [] => pend
  | pend, c :: cs =>
    if isPySpace c then puRun (pend ++ [c]) cs
    else if isPunctChar c then c :: puRun [] cs
    else pend ++ c :: puRun [] cs

/-- Embedding of `re.sub(r'\s+([,;.!?])', r'\1', text)`. -/
def fixPunct (l : List Char) : List Char :=
  puRun [] l

/-- States of the `(\w)\s+-\s+(\w)` rewriter: a buffered word character,
the whitespace run(s) and the hyphen seen so far. -/
inductive HySt where
  | start : HySt
  | armed : Char → HySt
  | sp1 : Char → List Char → HySt
  | hyph : Char → List Char → HySt
  | sp2 : Char → List Char → List Char → HySt

/-- The buffered text of a candidate hyphen-spacing match. -/
def hyFlush : HySt → List Char
  | .start => []
  | .armed w => [w]
  | .sp1 w sp => w :: sp
  | .hyph w sp => w :: sp ++ [ '-']
  | .sp2 w sp1 sp2 => w :: sp1 ++ '-' :: sp2

/-- Scanner for `re.sub(r'(\w)\s+-\s+(\w)', r'\1-\2', text)`.  On a match
the replacement `w-c` is emitted and scanning resumes after the second word
character, as `re.sub` does (so `a - b - c` rewrites to `a-b - c`). -/
def hyRun : HySt → List Char → List Char
  | st, [] => hyFlush st
  | .start, c :: cs =>
    if wordChar c then hyRun (.armed c) cs else c :: hyRun .start cs
  | .armed w, c :: cs =>
    if isPySpace c then hyRun (.sp1 w [c]) cs
    else if wordChar c then w :: hyRun (.armed c) cs
    else w :: c :: hyRun .start cs
  | .sp1 w sp, c :: cs =>
    if isPySpace c then hyRun (.sp1 w (sp ++ [c])) cs
    else if c = '-' then hyRun (.hyph w sp) cs
    else if wordChar c then (w :: sp) ++ hyRun (.armed c) cs
    else (w :: sp) ++ c :: hyRun .start cs
  | .hyph w sp, c :: cs =>
    if isPySpace c then hyRun (.sp2 w sp [c]) cs
    else if wordChar c then (w :: sp ++ [ '-']) ++ hyRun (.armed c) cs
    else (w :: sp ++ [ '-']) ++ c :: hyRun .start cs
  | .sp2 w s1 s2, c :: cs =>
    if isPySpace c then hyRun (.sp2 w s1 (s2 ++ [c])) cs
    else if wordChar c then w :: '-' :: c :: hyRun .start cs
    else (w :: s1 ++ '-' :: s2) ++ c :: hyRun .start cs

/-- Embedding of `re.sub(r'(\w)\s+-\s+(\w)', r'\1-\2', text)`. -/
def fixHyphens (l : List Char) : List Char :=
  hyRun .start l

/-- Embedding of `_clean_abstract_text` (parser.py:325-349): the six
rewrites in source order. -/
def clean_abstract_text (l : List Char) : List Char :=
  fixHyphens (fixPunct (collapseAndStrip (stripTrailingParenNum (removeDateCode (removeContinued l)))))

/-!
### Top level (`extract_abstract`, parser.py:352-381)
-/

/-- The pure pipeline of `extract_abstract` on the concatenated page text:
slice after the heading (`if not abstract_text` also rejects an empty
slice), collect lines, join, clean, with each empty intermediate result
mapped to `none`. -/
def extract_abstract_pure (t : List Char) : Option (List Char) :=
  match find_abstract_section t with
  | none => none
  | some a =>
    if a.isEmpty then none
    else
      let ls := collect_abstract_lines a
      if ls.isEmpty then none
      else
        let ab := clean_abstract_text (join_split_words ls)
        if ab.isEmpty then none else some ab

/-- Model of the document-reading boundary `_extract_text_from_pdf`
(parser.py:7-47): either the concatenated text of the first pages, or a
failure (`fitz.open` / page reads raise on a missing or corrupt document). -/
inductive PdfDoc where
  | readable : List Char → PdfDoc
  | unreadable : PdfDoc

/-- Embedding of `extract_abstract` (parser.py:352-381) including its
error behavior: the function body contains no exception handler, so a read
failure propagates to the caller (`Except.error`); on a successful read the
pure pipeline runs. -/
def extract_abstract (doc : PdfDoc) : Except Unit (Option (List Char)) :=
  match doc with
  | .unreadable => .error ()
  | .readable t => .ok (extract_abstract_pure t)

/-!
### Spec-side definitions

These definitions follow the wording of the specification / claims (not the
source); theorems compare them with the embedded source functions.
-/

/-- Spec wording of the word-join rule (claim C6): fragment+continuation
(previous token length 3-4, new token length 4-7, both boundary characters
lowercase, previous token not ending in sentence punctuation, combined
length 8-11) or stem+suffix (lengths exactly 5 and 3, same conditions, new
token in the fixed suffix set). -/
def SplitWordSpec (lastW firstW : List Char) : Prop :=
  ((3 ≤ lastW.length ∧ lastW.length ≤ 4) ∧ (4 ≤ firstW.length ∧ firstW.length ≤ 7) ∧
   (∃ c, lastW.getLast? = some c ∧ c.isLower = true) ∧
   (∃ c, firstW.head? = some c ∧ c.isLower = true) ∧
   ¬(∃ c, lastW.getLast? = some c ∧ isPunctChar c = true) ∧
   (8 ≤ lastW.length + firstW.length ∧ lastW.length + firstW.length ≤ 11)) ∨
  (lastW.length = 5 ∧ firstW.length = 3 ∧
   (∃ c, lastW.getLast? = some c ∧ c.isLower = true) ∧
   (∃ c, firstW.head? = some c ∧ c.isLower = true) ∧
   ¬(∃ c, lastW.getLast? = some c ∧ isPunctChar c = true) ∧
   firstW ∈ [ "ing".toList, "tion".toList, "ous".toList, "ent".toList, "ant".toList, "ity".toList])

/-- Number of space-separated words of a line, as the claim C8 wording reads
naturally: maximal chunks between `' '` characters. -/
def numSpaceSepWords (l : List Char) : Nat :=
  ((l.splitOn ' ').filter (fun w => !w.isEmpty)).length

/-- Two non-overlapping runs of three consecutive lowercase letters (spec
reading of `[a-z]{3,}.*[a-z]{3,}` on a newline-free line; a single run of
six or more letters contains two such triples). -/
def HasTwoLowerTriples (l : List Char) : Prop :=
  ∃ p q r a b c d e f, l = p ++ a :: b :: c :: q ++ d :: e :: f :: r ∧
    a.isLower = true ∧ b.isLower = true ∧ c.isLower = true ∧
    d.isLower = true ∧ e.isLower = true ∧ f.isLower = true

/-- The four conditions of the short-capitalized-phrase noise rule, amended
(claim C8): length below 20, at most two space characters, capital first
letter, and no two non-overlapping lowercase triples. -/
def C8Conds (l : List Char) : Prop :=
  l.length < 20 ∧ l.count ' ' ≤ 2 ∧
  (∃ c rest, l = c :: rest ∧ c.isUpper = true) ∧
  ¬ HasTwoLowerTriples l

/-- A run of two or more consecutive whitespace characters somewhere in the
list (claim C2's forbidden output shape). -/
def hasWsRun : List Char → Bool
  | a :: b :: r => (isPySpace a && isPySpace b) || hasWsRun (b :: r)
  | _ => false

/-- A whitespace character immediately before a `[,;.!?]` punctuation
character somewhere in the list. -/
def hasWsPunct : List Char → Bool
  | a :: b :: r => (isPySpace a && isPunctChar b) || hasWsPunct (b :: r)
  | _ => false

/-- First character is whitespace. -/
def headWs : List Char → Bool
  | [] => false
  | c :: _ => isPySpace c

/-- Last character is whitespace. -/
def lastWs : List Char → Bool
  | [] => false
  | [c] => isPySpace c
  | _ :: c :: cs => lastWs (c :: cs)

/-- Every whitespace character is a plain `' '`. -/
def wsOnlySpace (l : List Char) : Bool :=
  l.all (fun c => !isPySpace c || c = ' ')

/-!
### Concrete inputs used by counterexamples and witnesses
-/

/-- Input whose extracted abstract is exactly the string `(Continued)`:
the date-code removal re-creates the marker (claim C2). -/
def exC2text : List Char := "ABSTRACT\n(Contin(2014.01)ued)".toList

/-- A document text used as a witness for claim C1. -/
def exC1text : List Char :=
  "ABSTRACT\nA device is described with several novel features.\n(51)\nnoise after".toList

/-- The kept abstract of `exC1text`. -/
def exC1out : List Char := "A device is described with several novel features.".toList

/-- Post-heading text used as a witness for claim C4. -/
def exC4text : List Char :=
  "Some useful abstract text appears here.\n(51) Int. Cl.\nFIELD".toList

/-- The three-line continuation scenario of claim C5. -/
def exC5good : List Char :=
  "(Continued)\nPage 2\nthe remaining abstract text follows here in full sentences.".toList

/-- The continuation scenario refuting claim C5: the middle line carries a
`(Continued)` marker with leading text. -/
def exC5bad : List Char :=
  "(Continued)\nkeep me (Continued)\nthe remaining abstract text follows here in full sentences.".toList

/-- The final sentence of the continuation scenarios. -/
def exC5sentence : List Char :=
  "the remaining abstract text follows here in full sentences.".toList

/-- A resumption-shaped line (lowercase start, longer than 30) that matches
the `Claims,` stop condition (claim C9). -/
def exC9stop : List Char := "claims, and further matter relating thereto is disclosed".toList

/-- A resumption-shaped line that matches the `et al.` noise condition
(claim C9). -/
def exC9noise : List Char := "someone and another person et al. wrote about these things".toList

/-!
### Claims C3 and C10
-/

/-- C3 counterexample: for a document that cannot be opened,
`extract_abstract` does not return NotFound — the read failure propagates
(there is no exception handler in `extract_abstract`), contradicting the
claim that such a call returns None. -/
theorem extract_abstract_unreadable_raises :
    extract_abstract PdfDoc.unreadable = Except.error () ∧
    extract_abstract PdfDoc.unreadable ≠ Except.ok none := by
  refine ⟨rfl, ?_⟩
  intro h
  exact Except.noConfusion h

/-- C3 amended: a document-open failure propagates to the caller unchanged
(the distinct-failure behavior prescribed by the spec's error-handling
section), and on a successfully read document the pure pipeline runs;
NotFound arises only from the pipeline. -/
theorem extract_abstract_propagates_read_failure :
    extract_abstract PdfDoc.unreadable = Except.error () ∧
    ∀ t, extract_abstract (PdfDoc.readable t) = Except.ok (extract_abstract_pure t) :=
  ⟨rfl, fun _ => rfl⟩

/-- C10: the stem+suffix rule can never fire with suffix `tion`: for any
previous token of length exactly 5 and first token `tion`, `_is_split_word`
returns `False` (the rule demands a length-3 first token, but `tion` has
length 4, and the fragment rule demands a previous token of length at most
4); such lines are joined with a space. -/
theorem split_word_tion_unreachable :
    (∀ lw : List Char, lw.length = 5 → is_split_word lw "tion".toList = false) ∧
    join_split_words [ "an inven".toList, "tion here".toList] = "an inven tion here".toList := by
  refine ⟨?_, rfl⟩
  intro lw h
  simp [is_split_word, h]

/-- C10 witness: the theorem applied to the concrete token `inven`. -/
theorem split_word_tion_unreachable_witness :
    is_split_word "inven".toList "tion".toList = false :=
  split_word_tion_unreachable.1 "inven".toList rfl

/-!
### Claim C2: counterexample
-/

/-- C2 counterexample: on `exC2text` the extracted abstract is the literal
string `(Continued)` — the date-code rewrite `(2014.01) ↦ ''` runs after
the marker-removal rewrite and re-creates a `(Continued)` substring, so the
claimed "no literal (Continued) substring" guarantee fails. -/
theorem extract_abstract_continued_cex :
    extract_abstract_pure exC2text = some "(Continued)".toList ∧
    "(Continued)".toList <:+: "(Continued)".toList := by
  exact ⟨by decide, List.infix_rfl⟩

/-!
### Claim C5: continuation handling
-/

/-- C5 counterexample: while awaiting a continuation, the line
`keep me (Continued)` is neither of the claim's two resumption shapes, yet
it is not discarded — the marker check runs before the awaiting check, so
its pre-marker text `keep me` is kept.  The collected output is therefore
not just the final sentence. -/
theorem collect_awaiting_marker_line_kept_cex :
    should_resume_after_continued "keep me (Continued)".toList = false ∧
    collect_abstract_lines exC5bad = [ "keep me".toList, exC5sentence] := by
  exact ⟨by decide, by decide⟩

/-- C5 amended: after a `(Continued)` marker, every subsequent line that
does not itself contain a marker is discarded until a resumption line
appears; a `Page <N>` resumption line is itself discarded but clears the
awaiting state; and on the claim's concrete three-line input the collected
output is exactly the final sentence.  (A subsequent line containing a
marker instead keeps its pre-marker text, as the counterexample shows.) -/
theorem collect_awaiting_behavior :
    (∀ raw rest, stripWs raw ≠ [] →
       (handle_continued_marker (stripWs raw)).2 = false →
       should_resume_after_continued (stripWs raw) = false →
       collectAux true (raw :: rest) = collectAux true rest) ∧
    (∀ raw rest, stripWs raw ≠ [] →
       (handle_continued_marker (stripWs raw)).2 = false →
       pageMarkerAt (stripWs raw) = true →
       collectAux true (raw :: rest) = collectAux false rest) ∧
    collect_abstract_lines exC5good = [exC5sentence] := by
  refine ⟨?_, ?_, by decide⟩
  · intro raw rest h1 h2 h3
    have hm : handle_continued_marker (stripWs raw) = (some (stripWs raw), false) := by
      unfold handle_continued_marker
      unfold handle_continued_marker at h2
      cases hs : splitAtContinued (stripWs raw) with
      | some pre => rw [hs] at h2; simp at h2
      | none => rfl
    simp only [collectAux, hm, h3]
    rw [if_neg (by simpa [List.isEmpty_iff] using h1)]
    simp
  · intro raw rest h1 h2 h3
    have hm : handle_continued_marker (stripWs raw) = (some (stripWs raw), false) := by
      unfold handle_continued_marker
      unfold handle_continued_marker at h2
      cases hs : splitAtContinued (stripWs raw) with
      | some pre => rw [hs] at h2; simp at h2
      | none => rfl
    have hr : should_resume_after_continued (stripWs raw) = true := by
      simp [should_resume_after_continued, h3]
    simp only [collectAux, hm, hr, h3]
    rw [if_neg (by simpa [List.isEmpty_iff] using h1)]
    simp

/-- C5 amended witness: the general clauses applied to concrete lines — the
non-resumption line `Smith et al.` is discarded while awaiting, and the page
marker `Page 2` is discarded while clearing the state. -/
theorem collect_awaiting_behavior_witness :
    collectAux true [ "Smith et al.".toList] = collectAux true [] ∧
    collectAux true [ "Page 2".toList] = collectAux false [] := by
  constructor
  · exact collect_awaiting_behavior.1 "Smith et al.".toList [] (by decide) (by decide) (by decide)
  · exact collect_awaiting_behavior.2.1 "Page 2".toList [] (by decide) (by decide) (by decide)

/-!
### Claim C9: resumption lines still face stop and noise checks
-/

/-- C9: when the awaiting state is cleared by a resumption line, the line is
still evaluated against the stop and noise conditions: a resumption line
matching a stop condition halts collection and is discarded, and one
matching a noise condition is skipped. -/
theorem collect_resumption_checked (raw : List Char) (rest : List (List Char))
    (h1 : stripWs raw ≠ [])
    (h2 : (handle_continued_marker (stripWs raw)).2 = false)
    (h3 : should_resume_after_continued (stripWs raw) = true)
    (h4 : pageMarkerAt (stripWs raw) = false) :
    (should_stop_collecting (stripWs raw) = true → collectAux true (raw :: rest) = []) ∧
    (should_stop_collecting (stripWs raw) = false → is_noise_line (stripWs raw) = true →
       collectAux true (raw :: rest) = collectAux false rest) := by
  have hm : handle_continued_marker (stripWs raw) = (some (stripWs raw), false) := by
    unfold handle_continued_marker
    unfold handle_continued_marker at h2
    cases hs : splitAtContinued (stripWs raw) with
    | some pre => rw [hs] at h2; simp at h2
    | none => rfl
  constructor
  · intro hstop
    simp only [collectAux, hm, h3, h4]
    rw [if_neg (by simpa [List.isEmpty_iff] using h1)]
    simp [hstop]
  · intro hstop hnoise
    simp only [collectAux, hm, h3, h4]
    rw [if_neg (by simpa [List.isEmpty_iff] using h1)]
    simp [hstop, hnoise]

/-- C9 witness: a lowercase resumption line beginning `claims,` (stop
matching is case-insensitive) halts collection; a resumption line matching
the `et al.` noise rule is skipped. -/
theorem collect_resumption_checked_witness :
    collectAux true [exC9stop, "more text here".toList] = [] ∧
    collectAux true [exC9noise] = collectAux false [] := by
  constructor
  · exact (collect_resumption_checked exC9stop [ "more text here".toList]
      (by decide) (by decide) (by decide) (by decide)).1 (by decide)
  · exact (collect_resumption_checked exC9noise [] (by decide) (by decide) (by decide)
      (by decide)).2 (by decide) (by decide)

/-!
### Claim C4: collection without continuation markers
-/

/-- On a marker-free line list the collector is: strip, drop empties, take
while no stop condition, then drop noise lines. -/
theorem collectAux_no_marker (ls : List (List Char))
    (h : ∀ l ∈ ls, (handle_continued_marker (stripWs l)).2 = false) :
    collectAux false ls =
      (((ls.map stripWs).filter (fun l => !l.isEmpty)).takeWhile
        (fun l => !should_stop_collecting l)).filter (fun l => !is_noise_line l) := by
  induction ls with
  | nil => rfl
  | cons raw rest ih =>
    have hr := h raw (List.mem_cons_self raw rest)
    have hrest : ∀ l ∈ rest, (handle_continued_marker (stripWs l)).2 = false :=
      fun l hl => h l (List.mem_cons_of_mem raw hl)
    have hm : handle_continued_marker (stripWs raw) = (some (stripWs raw), false) := by
      unfold handle_continued_marker
      unfold handle_continued_marker at hr
      cases hs : splitAtContinued (stripWs raw) with
      | some pre => rw [hs] at hr; simp at hr
      | none => rfl
    by_cases he : (stripWs raw).isEmpty
    · simp [collectAux, he, ih hrest, List.filter_cons]
    · by_cases hstop : should_stop_collecting (stripWs raw)
      · simp [collectAux, he, hm, hstop, List.filter_cons, List.takeWhile_cons]
      · by_cases hnoise : is_noise_line (stripWs raw)
        · simp [collectAux, he, hm, hstop, hnoise, ih hrest, List.filter_cons,
            List.takeWhile_cons]
        · simp [collectAux, he, hm, hstop, hnoise, ih hrest, List.filter_cons,
            List.takeWhile_cons]

/-- C4: for text containing no `(Continued)` marker on any line, the
collector returns exactly the trimmed non-empty lines lying strictly before
the first stop line that match no noise condition, in order; the stop
boundary is computed before noise filtering. -/
theorem collect_no_marker_characterization (t : List Char)
    (h : ∀ l ∈ splitNl t, (handle_continued_marker (stripWs l)).2 = false) :
    collect_abstract_lines t =
      ((((splitNl t).map stripWs).filter (fun l => !l.isEmpty)).takeWhile
        (fun l => !should_stop_collecting l)).filter (fun l => !is_noise_line l) :=
  collectAux_no_marker (splitNl t) h

/-- C4 witness: the characterization applied to a concrete three-line text
with a noise-free kept line, a stop line and trailing content. -/
theorem collect_no_marker_characterization_witness :
    collect_abstract_lines exC4text =
      ((((splitNl exC4text).map stripWs).filter (fun l => !l.isEmpty)).takeWhile
        (fun l => !should_stop_collecting l)).filter (fun l => !is_noise_line l) :=
  collect_no_marker_characterization exC4text (by decide)

/-!
### Claim C1: the three NotFound cases
-/

/-- C1: `extract_abstract`'s pure pipeline returns `none` exactly when the
heading is missing, the kept-line list is empty, or the normalized string is
empty (an empty post-heading slice falls under the empty-kept-line case,
since collecting from empty text yields no lines); any other outcome is the
normalized non-empty string — no exception and no empty-string return is
possible from these stages (the embedded stages are total functions). -/
theorem extract_abstract_notfound_cases (t : List Char) :
    (extract_abstract_pure t = none ↔
      (find_abstract_section t = none ∨
       collect_abstract_lines ((find_abstract_section t).getD []) = [] ∨
       clean_abstract_text (join_split_words
         (collect_abstract_lines ((find_abstract_section t).getD []))) = [])) ∧
    (∀ s, extract_abstract_pure t = some s →
       s = clean_abstract_text (join_split_words
         (collect_abstract_lines ((find_abstract_section t).getD []))) ∧
       s ≠ []) := by
  cases hf : find_abstract_section t with
  | none =>
    constructor
    · simp [extract_abstract_pure, hf]
    · intro s hs
      rw [extract_abstract_pure, hf] at hs
      exact absurd hs (by simp)
  | some a =>
    by_cases ha : a.isEmpty
    · have ha' : a = [] := by simpa [List.isEmpty_iff] using ha
      subst ha'
      constructor
      · constructor
        · intro _
          right; left
          rfl
        · intro _
          simp [extract_abstract_pure, hf]
      · intro s hs
        rw [extract_abstract_pure, hf] at hs
        exact absurd hs (by simp)
    · by_cases hc : collect_abstract_lines a = []
      · constructor
        · constructor
          · intro _
            right; left
            simpa using hc
          · intro _
            simp [extract_abstract_pure, hf, ha, hc]
        · intro s hs
          rw [extract_abstract_pure, hf] at hs
          simp [ha, hc] at hs
      · by_cases hcl : clean_abstract_text (join_split_words (collect_abstract_lines a)) = []
        · constructor
          · constructor
            · intro _
              right; right
              simpa using hcl
            · intro _
              simp [extract_abstract_pure, hf, ha, hc, hcl]
          · intro s hs
            rw [extract_abstract_pure, hf] at hs
            simp [ha, hc, hcl] at hs
        · constructor
          · constructor
            · intro hnone
              rw [extract_abstract_pure, hf] at hnone
              simp [ha, hc, hcl] at hnone
            · intro habs
              rcases habs with h1 | h2 | h3
              · exact absurd h1 (by simp [hf])
              · exact absurd (by simpa using h2) hc
              · exact absurd (by simpa using h3) hcl
          · intro s hs
            rw [extract_abstract_pure, hf] at hs
            simp only [List.isEmpty_iff] at hs
            rw [if_neg (by simpa [List.isEmpty_iff] using ha)] at hs
            rw [if_neg hc, if_neg hcl] at hs
            have : s = clean_abstract_text (join_split_words (collect_abstract_lines a)) := by
              exact (Option.some_inj.mp hs).symm
            refine ⟨by simpa using this, ?_⟩
            rw [this]; exact hcl

/-- C1 witness: the case analysis applied to `exC1text`, whose extraction
succeeds with `exC1out`. -/
theorem extract_abstract_notfound_cases_witness :
    exC1out = clean_abstract_text (join_split_words
      (collect_abstract_lines ((find_abstract_section exC1text).getD []))) ∧
    exC1out ≠ [] :=
  (extract_abstract_notfound_cases exC1text).2 exC1out (by decide)

/-!
### Claim C6: the word-join rule and two-line join behavior
-/

/-- The embedded split-word test agrees with the spec-worded rule. -/
theorem is_split_word_iff_spec (lw fw : List Char) :
    is_split_word lw fw = true ↔ SplitWordSpec lw fw := by
  cases fw with
  | nil =>
    cases hl : lw.getLast? with
    | none =>
      simp [is_split_word, SplitWordSpec, endsLowerB, startsLowerB, endsPunct, hl]
    | some cl =>
      simp [is_split_word, SplitWordSpec, endsLowerB, startsLowerB, endsPunct, hl]
  | cons c0 cs =>
    cases hl : lw.getLast? with
    | none =>
      simp [is_split_word, SplitWordSpec, endsLowerB, startsLowerB, endsPunct, hl]
    | some cl =>
      simp [is_split_word, SplitWordSpec, endsLowerB, startsLowerB, endsPunct, hl,
        and_assoc, or_assoc]

/-- Two kept lines with tokens `lw` / `fw` are joined without a space
exactly when the split-word rule fires, and with a single space otherwise. -/
theorem join_split_words_two (l1 l2 lw fw : List Char)
    (h1 : lastTokenOf l1 = some lw) (h2 : firstTokenOf l2 = some fw) :
    join_split_words [l1, l2] =
      if is_split_word lw fw then l1 ++ l2 else l1 ++ ' ' :: l2 := by
  by_cases hs : is_split_word lw fw
  · simp [join_split_words, processLinesAux, h1, h2, hs, joinWithSpace]
  · simp [join_split_words, processLinesAux, h1, h2, hs, joinWithSpace]

/-- C6: two consecutive kept lines are concatenated with no intervening
space exactly when the previous line's last token and the new line's first
token satisfy the fragment+continuation or stem+suffix rule (spelled out in
`SplitWordSpec`), and with a single space otherwise; lines ending `elec` /
starting `tric motor` produce `electric motor`, while `A sensor.` /
`Another ...` keep the space. -/
theorem join_split_words_characterization :
    (∀ lw fw, is_split_word lw fw = true ↔ SplitWordSpec lw fw) ∧
    (∀ l1 l2 lw fw, lastTokenOf l1 = some lw → firstTokenOf l2 = some fw →
      join_split_words [l1, l2] =
        if is_split_word lw fw then l1 ++ l2 else l1 ++ ' ' :: l2) ∧
    "electric motor".toList <:+:
      join_split_words [ "uses elec".toList, "tric motor power.".toList] ∧
    "sensor. Another".toList <:+:
      join_split_words [ "A sensor.".toList, "Another device is shown.".toList] :=
  ⟨is_split_word_iff_spec, join_split_words_two, by decide, by decide⟩

/-- C6 witness: the join characterization applied to the concrete pair
`uses elec` / `tric motor power.` with tokens `elec` / `tric`. -/
theorem join_split_words_characterization_witness :
    join_split_words [ "uses elec".toList, "tric motor power.".toList] =
      if is_split_word "elec".toList "tric".toList
      then "uses elec".toList ++ "tric motor power.".toList
      else "uses elec".toList ++ ' ' :: "tric motor power.".toList :=
  join_split_words_characterization.2.1 "uses elec".toList "tric motor power.".toList
    "elec".toList "tric".toList (by decide) (by decide)

/-!
### Whitespace-run lemmas

Infrastructure for claim C2: the normalizer's collapse stage produces a
string with no two adjacent whitespace characters, and the later punctuation
and hyphen stages preserve that property.
-/

/-- Unfolding of `hasWsRun` through one cons. -/
theorem hasWsRun_cons (c : Char) (l : List Char) :
    hasWsRun (c :: l) = ((isPySpace c && headWs l) || hasWsRun l) := by
  cases l with
  | nil => simp [hasWsRun, headWs]
  | cons d ds => simp [hasWsRun, headWs]

/-- `lastWs` through one cons. -/
theorem lastWs_cons (c : Char) (l : List Char) :
    lastWs (c :: l) = (if l.isEmpty then isPySpace c else lastWs l) := by
  cases l with
  | nil => simp [lastWs]
  | cons d ds => simp [lastWs]

/-- `hasWsRun` over an append decomposes into the two parts plus the
boundary pair. -/
theorem hasWsRun_append (x y : List Char) :
    hasWsRun (x ++ y) = (hasWsRun x || (lastWs x && headWs y) || hasWsRun y) := by
  induction x with
  | nil => simp [hasWsRun, lastWs]
  | cons a x' ih =>
    cases x' with
    | nil =>
      cases y with
      | nil => simp [hasWsRun, lastWs, headWs]
      | cons b ys => simp [hasWsRun, hasWsRun_cons, lastWs, headWs]
    | cons c x'' =>
      rw [List.cons_append, hasWsRun_cons, ih]
      have hh : headWs ((c :: x'') ++ y) = headWs (c :: x'') := by
        simp [headWs]
      rw [hh]
      rw [show hasWsRun (a :: c :: x'') =
            ((isPySpace a && headWs (c :: x'')) || hasWsRun (c :: x'')) from
          hasWsRun_cons a (c :: x'')]
      rw [show lastWs (a :: c :: x'') = lastWs (c :: x'') from rfl]
      simp [Bool.or_assoc]

/-- Components of a whitespace-run-free append. -/
theorem hasWsRun_parts {x y : List Char} (h : hasWsRun (x ++ y) = false) :
    hasWsRun x = false ∧ (lastWs x && headWs y) = false ∧ hasWsRun y = false := by
  rw [hasWsRun_append] at h
  simp only [Bool.or_eq_false_iff] at h
  exact ⟨h.1.1, h.1.2, h.2⟩

/-- Components of a whitespace-run-free cons. -/
theorem hasWsRun_cons_parts {c : Char} {l : List Char}
    (h : hasWsRun (c :: l) = false) :
    (isPySpace c && headWs l) = false ∧ hasWsRun l = false := by
  rw [hasWsRun_cons] at h
  simp only [Bool.or_eq_false_iff] at h
  exact h

/-- The collapse scanner in run-state never emits a leading space. -/
theorem headWs_collapseWsAux_true (l : List Char) :
    headWs (collapseWsAux true l) = false := by
  induction l with
  | nil => rfl
  | cons c cs ih =>
    by_cases hc : isPySpace c
    · simpa [collapseWsAux, hc] using ih
    · simp [collapseWsAux, hc, headWs]

/-- The collapse scanner's output has no adjacent whitespace pair. -/
theorem hasWsRun_collapseWsAux (l : List Char) :
    ∀ b, hasWsRun (collapseWsAux b l) = false := by
  induction l with
  | nil => intro b; rfl
  | cons c cs ih =>
    intro b
    by_cases hc : isPySpace c
    · cases b
      · simp [collapseWsAux, hc, hasWsRun_cons, ih true, headWs_collapseWsAux_true]
      · simpa [collapseWsAux, hc] using ih true
    · simp [collapseWsAux, hc, hasWsRun_cons, ih false]

/-- One-step shape of `dropTrailingWs` on a cons. -/
theorem dropTrailingWs_cons_or (c : Char) (cs : List Char) :
    dropTrailingWs (c :: cs) = [] ∨
    dropTrailingWs (c :: cs) = c :: dropTrailingWs cs := by
  by_cases h : (dropTrailingWs cs).isEmpty && isPySpace c
  · left; simp [dropTrailingWs, h]
  · right; simp [dropTrailingWs, h]

/-- `dropTrailingWs` cannot create a leading whitespace character. -/
theorem headWs_dropTrailingWs_le (l : List Char)
    (h : headWs (dropTrailingWs l) = true) : headWs l = true := by
  cases l with
  | nil => exact h
  | cons c cs =>
    rcases dropTrailingWs_cons_or c cs with h1 | h1
    · rw [h1] at h; simp [headWs] at h
    · rw [h1] at h; simpa [headWs] using h

/-- `dropTrailingWs` preserves freedom from whitespace runs. -/
theorem hasWsRun_dropTrailingWs (l : List Char) (h : hasWsRun l = false) :
    hasWsRun (dropTrailingWs l) = false := by
  induction l with
  | nil => rfl
  | cons c cs ih =>
    obtain ⟨hb, hcs⟩ := hasWsRun_cons_parts h
    rcases dropTrailingWs_cons_or c cs with h1 | h1
    · rw [h1]; rfl
    · rw [h1, hasWsRun_cons, ih hcs]
      by_cases hh : headWs (dropTrailingWs cs) = true
      · have h2 := headWs_dropTrailingWs_le cs hh
        have hc : isPySpace c = false := by simpa [h2] using hb
        simp [hc]
      · have h3 : headWs (dropTrailingWs cs) = false := by simpa using hh
        simp [h3]

/-- `dropWhile` preserves freedom from whitespace runs. -/
theorem hasWsRun_dropWhile (p : Char → Bool) (l : List Char)
    (h : hasWsRun l = false) : hasWsRun (l.dropWhile p) = false := by
  have hd := hasWsRun_append (l.takeWhile p) (l.dropWhile p)
  rw [List.takeWhile_append_dropWhile, h] at hd
  have := hd.symm
  simp only [Bool.or_eq_false_iff] at this
  exact this.2

/-- `stripWs` preserves freedom from whitespace runs. -/
theorem hasWsRun_stripWs (l : List Char) (h : hasWsRun l = false) :
    hasWsRun (stripWs l) = false :=
  hasWsRun_dropTrailingWs _ (hasWsRun_dropWhile _ _ h)

/-- The output of `collapseAndStrip` has no whitespace run. -/
theorem hasWsRun_collapseAndStrip (l : List Char) :
    hasWsRun (collapseAndStrip l) = false :=
  hasWsRun_stripWs _ (hasWsRun_collapseWsAux l false)

/-- The punctuation-spacing scanner preserves freedom from whitespace runs. -/
theorem hasWsRun_puRun (l : List Char) :
    ∀ pend, hasWsRun (pend ++ l) = false → hasWsRun (puRun pend l) = false := by
  induction l with
  | nil =>
    intro pend h
    simpa [puRun] using h
  | cons c cs ih =>
    intro pend h
    obtain ⟨hp, hb, hcl⟩ := hasWsRun_parts h
    obtain ⟨hbc, hcs⟩ := hasWsRun_cons_parts hcl
    by_cases hws : isPySpace c
    · rw [puRun, if_pos hws]
      apply ih
      rw [List.append_assoc]
      simpa using h
    · by_cases hpc : isPunctChar c
      · rw [puRun, if_neg hws, if_pos hpc, hasWsRun_cons]
        simp [hws, ih [] (by simpa using hcs)]
      · rw [puRun, if_neg hws, if_neg hpc, hasWsRun_append, hasWsRun_cons]
        simp [hws, hp, ih [] (by simpa using hcs)]
        intro hl
        simp [headWs, hws]

/-- The head word character of a hyphen-scanner state, if any. -/
def hyHead : HySt → Option Char
  | .start => none
  | .armed w => some w
  | .sp1 w _ => some w
  | .hyph w _ => some w
  | .sp2 w _ _ => some w

/-- From a state carrying word character `w`, the scanner's output starts
with `w`. -/
theorem hyRun_head (l : List Char) :
    ∀ st w, hyHead st = some w → ∃ t, hyRun st l = w :: t := by
  induction l with
  | nil =>
    intro st w h
    cases st with
    | start => simp [hyHead] at h
    | armed w' => simp [hyHead] at h; subst h; exact ⟨_, rfl⟩
    | sp1 w' sp => simp [hyHead] at h; subst h; exact ⟨_, rfl⟩
    | hyph w' sp => simp [hyHead] at h; subst h; exact ⟨_, rfl⟩
    | sp2 w' s1 s2 => simp [hyHead] at h; subst h; exact ⟨_, rfl⟩
  | cons c cs ih =>
    intro st w h
    cases st with
    | start => simp [hyHead] at h
    | armed w' =>
      simp [hyHead] at h; subst h
      by_cases h1 : isPySpace c
      · rw [hyRun, if_pos h1]; exact ih _ _ rfl
      · by_cases h2 : wordChar c
        · rw [hyRun, if_neg h1, if_pos h2]; exact ⟨_, rfl⟩
        · rw [hyRun, if_neg h1, if_neg h2]; exact ⟨_, rfl⟩
    | sp1 w' sp =>
      simp [hyHead] at h; subst h
      by_cases h1 : isPySpace c
      · rw [hyRun, if_pos h1]; exact ih _ _ rfl
      · by_cases h2 : c = '-'
        · rw [hyRun, if_neg h1, if_pos h2]; exact ih _ _ rfl
        · by_cases h3 : wordChar c
          · rw [hyRun, if_neg h1, if_neg h2, if_pos h3]; exact ⟨_, rfl⟩
          · rw [hyRun, if_neg h1, if_neg h2, if_neg h3]; exact ⟨_, rfl⟩
    | hyph w' sp =>
      simp [hyHead] at h; subst h
      by_cases h1 : isPySpace c
      · rw [hyRun, if_pos h1]; exact ih _ _ rfl
      · by_cases h2 : wordChar c
        · rw [hyRun, if_neg h1, if_pos h2]; exact ⟨_, rfl⟩
        · rw [hyRun, if_neg h1, if_neg h2]; exact ⟨_, rfl⟩
    | sp2 w' s1 s2 =>
      simp [hyHead] at h; subst h
      by_cases h1 : isPySpace c
      · rw [hyRun, if_pos h1]; exact ih _ _ rfl
      · by_cases h2 : wordChar c
        · rw [hyRun, if_neg h1, if_pos h2]; exact ⟨_, rfl⟩
        · rw [hyRun, if_neg h1, if_neg h2]; exact ⟨_, rfl⟩

/-- Word characters are not whitespace. -/
theorem wordChar_not_ws {c : Char} (h : wordChar c = true) : isPySpace c = false := by
  cases hsp : isPySpace c
  · rfl
  · exfalso
    have hor := hsp
    simp only [isPySpace, Bool.or_eq_true, decide_eq_true_eq] at hor
    rcases hor with ((((rfl | rfl) | rfl) | rfl) | rfl) | rfl <;>
      exact absurd h (by decide)

/-- The hyphen scanner does not change the head character's whitespace
status when started in the empty state. -/
theorem headWs_hyRun_start (l : List Char) :
    headWs (hyRun .start l) = headWs l := by
  cases l with
  | nil => rfl
  | cons c cs =>
    by_cases h2 : wordChar c
    · rw [hyRun, if_pos h2]
      obtain ⟨t, ht⟩ := hyRun_head cs (.armed c) c rfl
      rw [ht]
      simp [headWs]
    · rw [hyRun, if_neg h2]
      simp [headWs]

/-- The hyphen scanner preserves freedom from whitespace runs: if its
buffered state followed by the remaining input has no whitespace run, then
neither has its output. -/
theorem hasWsRun_hyRun (l : List Char) :
    ∀ st, hasWsRun (hyFlush st ++ l) = false → hasWsRun (hyRun st l) = false := by
  have hdash : isPySpace '-' = false := by decide
  induction l with
  | nil =>
    intro st h
    rw [hyRun]
    simpa using (hasWsRun_parts h).1
  | cons c cs ih =>
    intro st h
    cases st with
    | start =>
      have h' : hasWsRun (c :: cs) = false := by simpa [hyFlush] using h
      obtain ⟨hbc, hcs⟩ := hasWsRun_cons_parts h'
      by_cases h2 : wordChar c
      · rw [hyRun, if_pos h2]
        exact ih (.armed c) (by simpa [hyFlush] using h')
      · rw [hyRun, if_neg h2, hasWsRun_cons]
        have hrec := ih .start (by simpa [hyFlush] using hcs)
        rw [headWs_hyRun_start]
        simp [hrec]
        intro hcw
        simpa [hcw] using hbc
    | armed w =>
      have h' : hasWsRun (w :: c :: cs) = false := by simpa [hyFlush] using h
      obtain ⟨hw, hrest⟩ := hasWsRun_cons_parts h'
      obtain ⟨hbc, hcs⟩ := hasWsRun_cons_parts hrest
      by_cases h1 : isPySpace c
      · rw [hyRun, if_pos h1]
        apply ih
        simpa [hyFlush] using h'
      · by_cases h2 : wordChar c
        · rw [hyRun, if_neg h1, if_pos h2]
          obtain ⟨t, ht⟩ := hyRun_head cs (.armed c) c rfl
          have hct : hasWsRun (c :: t) = false := by
            rw [← ht]
            exact ih (.armed c) (by simpa [hyFlush] using hrest)
          rw [ht, hasWsRun_cons]
          simp [headWs, wordChar_not_ws h2, hct]
        · rw [hyRun, if_neg h1, if_neg h2]
          rw [hasWsRun_cons, hasWsRun_cons]
          have hrec := ih .start (by simpa [hyFlush] using hcs)
          have hcf : isPySpace c = false := by simpa using h1
          rw [headWs_hyRun_start]
          simp [headWs, hcf, hrec]
    | sp1 w sp =>
      have hfl : hyFlush (.sp1 w sp) = w :: sp := rfl
      rw [hfl] at h
      obtain ⟨hp, hb, hcl⟩ := hasWsRun_parts h
      obtain ⟨hbc, hcs⟩ := hasWsRun_cons_parts hcl
      by_cases h1 : isPySpace c
      · rw [hyRun, if_pos h1]
        apply ih
        have heq : (w :: (sp ++ [c])) ++ cs = (w :: sp) ++ (c :: cs) := by simp
        simpa [hyFlush, heq] using h
      · by_cases h2 : c = '-'
        · rw [hyRun, if_neg h1, if_pos h2]
          apply ih
          subst h2
          have heq : (w :: sp ++ [ '-']) ++ cs = (w :: sp) ++ ('-' :: cs) := by simp
          simpa [hyFlush, heq] using h
        · by_cases h3 : wordChar c
          · rw [hyRun, if_neg h1, if_neg h2, if_pos h3]
            obtain ⟨t, ht⟩ := hyRun_head cs (.armed c) c rfl
            have hct : hasWsRun (c :: t) = false := by
              rw [← ht]
              exact ih (.armed c) (by simpa [hyFlush] using hcl)
            rw [ht, hasWsRun_append]
            simp [hp, hct, headWs, wordChar_not_ws h3]
          · rw [hyRun, if_neg h1, if_neg h2, if_neg h3]
            rw [hasWsRun_append]
            have hrec := ih .start (by simpa [hyFlush] using hcs)
            have hcf : isPySpace c = false := by simpa using h1
            simp [hasWsRun_cons, headWs, headWs_hyRun_start, hp, hrec, hcf]
    | hyph w sp =>
      have hfl : hyFlush (.hyph w sp) = w :: sp ++ [ '-'] := rfl
      rw [hfl] at h
      obtain ⟨hp, hb, hcl⟩ := hasWsRun_parts h
      obtain ⟨hbc, hcs⟩ := hasWsRun_cons_parts hcl
      by_cases h1 : isPySpace c
      · rw [hyRun, if_pos h1]
        apply ih
        have heq : (w :: sp ++ '-' :: [c]) ++ cs = (w :: sp ++ [ '-']) ++ (c :: cs) := by
          simp
        simpa [hyFlush, heq] using h
      · by_cases h2 : wordChar c
        · rw [hyRun, if_neg h1, if_pos h2]
          obtain ⟨t, ht⟩ := hyRun_head cs (.armed c) c rfl
          have hct : hasWsRun (c :: t) = false := by
            rw [← ht]
            exact ih (.armed c) (by simpa [hyFlush] using hcl)
          rw [ht, hasWsRun_append, hp, hct]
          simp [headWs, wordChar_not_ws h2]
        · rw [hyRun, if_neg h1, if_neg h2]
          have hrec := ih .start (by simpa [hyFlush] using hcs)
          have hcf : isPySpace c = false := by simpa using h1
          rw [hasWsRun_append, hp, hasWsRun_cons, headWs_hyRun_start, hrec]
          simp [headWs, hcf]
    | sp2 w s1 s2 =>
      have hfl : hyFlush (.sp2 w s1 s2) = w :: s1 ++ '-' :: s2 := rfl
      rw [hfl] at h
      obtain ⟨hp, hb, hcl⟩ := hasWsRun_parts h
      obtain ⟨hbc, hcs⟩ := hasWsRun_cons_parts hcl
      by_cases h1 : isPySpace c
      · rw [hyRun, if_pos h1]
        apply ih
        have heq : (w :: s1 ++ '-' :: (s2 ++ [c])) ++ cs = (w :: s1 ++ '-' :: s2) ++ (c :: cs) := by
          simp
        simpa [hyFlush, heq] using h
      · by_cases h2 : wordChar c
        · rw [hyRun, if_neg h1, if_pos h2]
          rw [hasWsRun_cons, hasWsRun_cons, hasWsRun_cons]
          have hrec := ih .start (by simpa [hyFlush] using hcs)
          rw [headWs_hyRun_start]
          simp [headWs, hdash, hrec, wordChar_not_ws h2]
        · rw [hyRun, if_neg h1, if_neg h2]
          have hrec := ih .start (by simpa [hyFlush] using hcs)
          have hcf : isPySpace c = false := by simpa using h1
          rw [hasWsRun_append, hp, hasWsRun_cons, headWs_hyRun_start, hrec]
          simp [headWs, hcf]

/-- The normalizer's output never contains a whitespace run: the collapse
stage removes all runs and the punctuation / hyphen stages preserve that. -/
theorem hasWsRun_clean_abstract_text (l : List Char) :
    hasWsRun (clean_abstract_text l) = false := by
  unfold clean_abstract_text fixHyphens fixPunct
  apply hasWsRun_hyRun
  simp only [hyFlush, List.nil_append]
  apply hasWsRun_puRun
  simp only [List.nil_append]
  exact hasWsRun_collapseAndStrip _

/-- C2 amended: for every input document the result is either NotFound or a
non-empty string containing no run of two or more consecutive whitespace
characters.  (The claim's further "no literal (Continued) substring"
guarantee fails: removing a date-code parenthetical can re-create the
marker, as the counterexample shows.) -/
theorem extract_abstract_output_shape (t : List Char) :
    ∀ s, extract_abstract_pure t = some s → s ≠ [] ∧ hasWsRun s = false := by
  intro s hs
  unfold extract_abstract_pure at hs
  cases hf : find_abstract_section t with
  | none => rw [hf] at hs; exact absurd hs (by simp)
  | some a =>
    rw [hf] at hs
    simp only [List.isEmpty_iff] at hs
    by_cases ha : a = []
    · rw [if_pos ha] at hs; exact absurd hs (by simp)
    · rw [if_neg ha] at hs
      by_cases hc : collect_abstract_lines a = []
      · rw [if_pos hc] at hs; exact absurd hs (by simp)
      · rw [if_neg hc] at hs
        by_cases hcl : clean_abstract_text (join_split_words (collect_abstract_lines a)) = []
        · rw [if_pos hcl] at hs; exact absurd hs (by simp)
        · rw [if_neg hcl] at hs
          have hse : s = clean_abstract_text (join_split_words (collect_abstract_lines a)) :=
            (Option.some_inj.mp hs).symm
          constructor
          · rw [hse]; exact hcl
          · rw [hse]
            exact hasWsRun_clean_abstract_text _

/-- C2 amended witness: applied to `exC2text`, whose extracted abstract is
the non-empty, run-free string `(Continued)`. -/
theorem extract_abstract_output_shape_witness :
    "(Continued)".toList ≠ [] ∧ hasWsRun "(Continued)".toList = false :=
  extract_abstract_output_shape exC2text "(Continued)".toList (by decide)

/-!
### Idempotence lemmas (claim C7)

`_clean_abstract_text` is not idempotent in general (the hyphen-collapsing
rewrite can enable another hyphen-collapsing rewrite, and removals can
re-create removable patterns).  On strings without parentheses and hyphens
it is: stages 1-3 are the identity, the collapse stage is idempotent, and
the punctuation stage removes all whitespace-before-punctuation pairs.
-/

/-- First character is `[,;.!?]` punctuation. -/
def headPunct : List Char → Bool
  | [] => false
  | c :: _ => isPunctChar c

/-- Punctuation characters are not whitespace. -/
theorem punct_not_ws {c : Char} (h : isPunctChar c = true) : isPySpace c = false := by
  have hor := h
  simp only [isPunctChar, Bool.or_eq_true, decide_eq_true_eq] at hor
  rcases hor with (((rfl | rfl) | rfl) | rfl) | rfl <;> decide

/-- Whitespace characters are not punctuation. -/
theorem ws_not_punct {c : Char} (h : isPySpace c = true) : isPunctChar c = false := by
  have hor := h
  simp only [isPySpace, Bool.or_eq_true, decide_eq_true_eq] at hor
  rcases hor with ((((rfl | rfl) | rfl) | rfl) | rfl) | rfl <;> decide

/-- Unfolding of `hasWsPunct` through one cons. -/
theorem hasWsPunct_cons (c : Char) (l : List Char) :
    hasWsPunct (c :: l) = ((isPySpace c && headPunct l) || hasWsPunct l) := by
  cases l with
  | nil => simp [hasWsPunct, headPunct]
  | cons d ds => simp [hasWsPunct, headPunct]

/-- `hasWsPunct` over an append decomposes into the parts plus the boundary. -/
theorem hasWsPunct_append (x y : List Char) :
    hasWsPunct (x ++ y) = (hasWsPunct x || (lastWs x && headPunct y) || hasWsPunct y) := by
  induction x with
  | nil => simp [hasWsPunct, lastWs]
  | cons a x' ih =>
    cases x' with
    | nil =>
      cases y with
      | nil => simp [hasWsPunct, lastWs, headPunct]
      | cons b ys => simp [hasWsPunct, hasWsPunct_cons, lastWs, headPunct]
    | cons c x'' =>
      rw [List.cons_append, hasWsPunct_cons, ih]
      have hh : headPunct ((c :: x'') ++ y) = headPunct (c :: x'') := by
        simp [headPunct]
      rw [hh]
      rw [show hasWsPunct (a :: c :: x'') =
            ((isPySpace a && headPunct (c :: x'')) || hasWsPunct (c :: x'')) from
          hasWsPunct_cons a (c :: x'')]
      rw [show lastWs (a :: c :: x'') = lastWs (c :: x'') from rfl]
      simp [Bool.or_assoc]

/-- An all-whitespace list contains no whitespace-punctuation pair. -/
theorem hasWsPunct_all_ws (pend : List Char) (h : pend.all isPySpace = true) :
    hasWsPunct pend = false := by
  induction pend with
  | nil => rfl
  | cons c cs ih =>
    simp only [List.all_cons, Bool.and_eq_true] at h
    rw [hasWsPunct_cons, ih h.2]
    cases cs with
    | nil => simp [headPunct]
    | cons d ds =>
      simp only [List.all_cons, Bool.and_eq_true] at h
      simp [headPunct, ws_not_punct h.2.1]

/-- `lastWs` over an append. -/
theorem lastWs_append (x y : List Char) :
    lastWs (x ++ y) = (if y.isEmpty then lastWs x else lastWs y) := by
  induction x with
  | nil =>
    cases y with
    | nil => simp [lastWs]
    | cons b ys => simp [lastWs]
  | cons a x' ih =>
    rw [List.cons_append, lastWs_cons, ih, lastWs_cons]
    cases x' with
    | nil =>
      cases y with
      | nil => simp
      | cons b ys => simp
    | cons c x'' =>
      cases y with
      | nil => simp
      | cons b ys => simp

/-- With an all-whitespace pending buffer and no whitespace-punctuation pair
in sight, the punctuation scanner is the identity. -/
theorem puRun_id (l : List Char) :
    ∀ pend, pend.all isPySpace = true → hasWsPunct (pend ++ l) = false →
      puRun pend l = pend ++ l := by
  induction l with
  | nil => intro pend _ _; simp [puRun]
  | cons c cs ih =>
    intro pend hall h
    by_cases hws : isPySpace c
    · rw [puRun, if_pos hws]
      have heq : (pend ++ [c]) ++ cs = pend ++ c :: cs := by simp
      rw [ih (pend ++ [c]) (by simp [List.all_append, hall, hws]) (by rw [heq]; exact h), heq]
    · by_cases hpc : isPunctChar c
      · have hpe : pend = [] := by
          rcases List.eq_nil_or_concat pend with h0 | ⟨ps, a, hpa⟩
          · exact h0
          · exfalso
            have ha : isPySpace a = true := by
              rw [hpa] at hall
              simp only [List.concat_eq_append, List.all_append, List.all_cons, List.all_nil,
                Bool.and_eq_true, Bool.and_true] at hall
              exact hall.2
            have h' : hasWsPunct (ps ++ (a :: c :: cs)) = false := by
              rw [hpa] at h
              simpa [List.concat_eq_append] using h
            rw [hasWsPunct_append] at h'
            simp only [Bool.or_eq_false_iff] at h'
            have hcomp := h'.2
            rw [hasWsPunct_cons] at hcomp
            simp [ha, headPunct, hpc] at hcomp
        subst hpe
        have hpcs : hasWsPunct cs = false := by
          have h' : hasWsPunct (c :: cs) = false := by simpa using h
          rw [hasWsPunct_cons] at h'
          simp only [Bool.or_eq_false_iff] at h'
          exact h'.2
        rw [puRun, if_neg hws, if_pos hpc]
        rw [ih [] rfl (by simpa using hpcs)]
        rfl
      · have hpcs : hasWsPunct cs = false := by
          rw [hasWsPunct_append, hasWsPunct_cons] at h
          simp only [Bool.or_eq_false_iff] at h
          exact h.2.2
        rw [puRun, if_neg hws, if_neg hpc]
        rw [ih [] rfl (by simpa using hpcs)]
        rfl

/-- The punctuation scanner's output has no whitespace-punctuation pair. -/
theorem hasWsPunct_puRun (l : List Char) :
    ∀ pend, pend.all isPySpace = true → hasWsPunct (puRun pend l) = false := by
  induction l with
  | nil => intro pend hall; simpa [puRun] using hasWsPunct_all_ws pend hall
  | cons c cs ih =>
    intro pend hall
    by_cases hws : isPySpace c
    · rw [puRun, if_pos hws]
      exact ih (pend ++ [c]) (by simp [List.all_append, hall, hws])
    · by_cases hpc : isPunctChar c
      · rw [puRun, if_neg hws, if_pos hpc, hasWsPunct_cons]
        simp [hws, ih [] rfl]
      · rw [puRun, if_neg hws, if_neg hpc, hasWsPunct_append, hasWsPunct_cons]
        simp [hasWsPunct_all_ws pend hall, headPunct, hpc, hws, ih [] rfl]

/-- The punctuation scanner does not create a leading whitespace character. -/
theorem headWs_fixPunct (l : List Char) (h : headWs l = false) :
    headWs (fixPunct l) = false := by
  cases l with
  | nil => rfl
  | cons c cs =>
    have hws : isPySpace c = false := by simpa [headWs] using h
    by_cases hpc : isPunctChar c
    · rw [fixPunct, puRun, if_neg (by simp [hws]), if_pos hpc]
      simp [headWs, hws]
    · rw [fixPunct, puRun, if_neg (by simp [hws]), if_neg hpc]
      simp [headWs, hws]

/-- The punctuation scanner does not create a trailing whitespace character. -/
theorem lastWs_puRun (l : List Char) :
    ∀ pend, pend.all isPySpace = true → lastWs (pend ++ l) = false →
      lastWs (puRun pend l) = false := by
  induction l with
  | nil =>
    intro pend _ h
    rw [puRun]
    simpa using h
  | cons c cs ih =>
    intro pend hall h
    have hws' := h
    rw [lastWs_append] at hws'
    simp only [List.isEmpty_cons, Bool.false_eq_true, if_false] at hws'
    by_cases hws : isPySpace c
    · rw [puRun, if_pos hws]
      apply ih (pend ++ [c]) (by simp [List.all_append, hall, hws])
      have heq : (pend ++ [c]) ++ cs = pend ++ c :: cs := by simp
      rw [heq]
      exact h
    · have hcne : isPySpace c = false := by simpa using hws
      have hrest : ∀ X, lastWs X = false → lastWs (c :: X) = false := by
        intro X hX
        rw [lastWs_cons]
        by_cases hXe : X.isEmpty = true
        · rw [if_pos hXe]; exact hcne
        · rw [if_neg hXe]; exact hX
      have hlcs : lastWs (puRun [] cs) = false := by
        apply ih [] rfl
        rw [List.nil_append]
        rw [lastWs_cons] at hws'
        by_cases hcse : cs.isEmpty = true
        · have : cs = [] := by simpa [List.isEmpty_iff] using hcse
          rw [this]
          rfl
        · rw [if_neg hcse] at hws'
          exact hws'
      by_cases hpc : isPunctChar c
      · rw [puRun, if_neg hws, if_pos hpc]
        exact hrest _ hlcs
      · rw [puRun, if_neg hws, if_neg hpc, lastWs_append]
        rw [if_neg (by simp)]
        exact hrest _ hlcs

/-- Characters of the collapse scanner's output come from the input or are
plain spaces. -/
theorem mem_collapseWsAux {c : Char} (l : List Char) :
    ∀ b, c ∈ collapseWsAux b l → c ∈ l ∨ c = ' ' := by
  induction l with
  | nil => intro b h; simp [collapseWsAux] at h
  | cons d ds ih =>
    intro b h
    by_cases hd : isPySpace d
    · cases b
      · rw [collapseWsAux, if_pos hd] at h
        simp only [Bool.false_eq_true, if_false] at h
        rcases List.mem_cons.mp h with h1 | h1
        · exact Or.inr h1
        · rcases ih true h1 with h2 | h2
          · exact Or.inl (List.mem_cons_of_mem d h2)
          · exact Or.inr h2
      · rw [collapseWsAux, if_pos hd, if_pos rfl] at h
        rcases ih true h with h2 | h2
        · exact Or.inl (List.mem_cons_of_mem d h2)
        · exact Or.inr h2
    · rw [collapseWsAux, if_neg hd] at h
      rcases List.mem_cons.mp h with h1 | h1
      · exact Or.inl (h1 ▸ List.mem_cons_self d ds)
      · rcases ih false h1 with h2 | h2
        · exact Or.inl (List.mem_cons_of_mem d h2)
        · exact Or.inr h2

/-- Characters of `dropTrailingWs`'s output come from the input. -/
theorem mem_dropTrailingWs {c : Char} (l : List Char)
    (h : c ∈ dropTrailingWs l) : c ∈ l := by
  induction l with
  | nil => simp [dropTrailingWs] at h
  | cons d ds ih =>
    rcases dropTrailingWs_cons_or d ds with h1 | h1
    · rw [h1] at h; simp at h
    · rw [h1] at h
      rcases List.mem_cons.mp h with h2 | h2
      · exact h2 ▸ List.mem_cons_self d ds
      · exact List.mem_cons_of_mem d (ih h2)

/-- Characters of `stripWs`'s output come from the input. -/
theorem mem_stripWs {c : Char} (l : List Char) (h : c ∈ stripWs l) : c ∈ l :=
  (List.dropWhile_sublist isPySpace).mem (mem_dropTrailingWs _ h)

/-- Characters of the punctuation scanner's output come from the pending
buffer or the input. -/
theorem mem_puRun {c : Char} (l : List Char) :
    ∀ pend, c ∈ puRun pend l → c ∈ pend ∨ c ∈ l := by
  induction l with
  | nil => intro pend h; rw [puRun] at h; exact Or.inl h
  | cons d ds ih =>
    intro pend h
    by_cases hws : isPySpace d
    · rw [puRun, if_pos hws] at h
      rcases ih (pend ++ [d]) h with h1 | h1
      · rcases List.mem_append.mp h1 with h2 | h2
        · exact Or.inl h2
        · simp only [List.mem_singleton] at h2
          exact Or.inr (h2 ▸ List.mem_cons_self d ds)
      · exact Or.inr (List.mem_cons_of_mem d h1)
    · by_cases hpc : isPunctChar d
      · rw [puRun, if_neg hws, if_pos hpc] at h
        rcases List.mem_cons.mp h with h1 | h1
        · exact Or.inr (h1 ▸ List.mem_cons_self d ds)
        · rcases ih [] h1 with h2 | h2
          · simp at h2
          · exact Or.inr (List.mem_cons_of_mem d h2)
      · rw [puRun, if_neg hws, if_neg hpc] at h
        rcases List.mem_append.mp h with h1 | h1
        · exact Or.inl h1
        · rcases List.mem_cons.mp h1 with h2 | h2
          · exact Or.inr (h2 ▸ List.mem_cons_self d ds)
          · rcases ih [] h2 with h3 | h3
            · simp at h3
            · exact Or.inr (List.mem_cons_of_mem d h3)

/-- The `(Continued)` remover is the identity on parenthesis-free text. -/
theorem removeContinued_id (l : List Char) (h : '(' ∉ l) :
    removeContinued l = l := by
  unfold removeContinued
  induction l with
  | nil => rfl
  | cons c cs ih =>
    have hc : ¬c = '(' := fun he => h (he ▸ List.mem_cons_self c cs)
    rw [coRun, if_neg hc, ih (fun hm => h (List.mem_cons_of_mem c hm))]

/-- The date-code remover is the identity on parenthesis-free text. -/
theorem removeDateCode_id (l : List Char) (h : '(' ∉ l) :
    removeDateCode l = l := by
  unfold removeDateCode
  induction l with
  | nil => rfl
  | cons c cs ih =>
    have hc : ¬c = '(' := fun he => h (he ▸ List.mem_cons_self c cs)
    rw [dcRun, if_neg hc, ih (fun hm => h (List.mem_cons_of_mem c hm))]

/-- A successful backward match for a trailing parenthesized number
contains an opening parenthesis. -/
theorem parenNumRevMatch_mem {r rem : List Char}
    (h : parenNumRevMatch r = some rem) : '(' ∈ r := by
  unfold parenNumRevMatch at h
  split at h
  · rename_i c r1
    dsimp only at h
    split at h
    · simp at h
    · split at h
      · rename_i r5 heq
        have h1 : '(' ∈ ((r1.dropWhile isPySpace).dropWhile Char.isDigit).dropWhile isPySpace := by
          rw [heq]
          exact List.mem_cons_self _ _
        have h2 := (List.dropWhile_sublist isPySpace).mem h1
        have h3 := (List.dropWhile_sublist Char.isDigit).mem h2
        have h4 := (List.dropWhile_sublist isPySpace).mem h3
        exact List.mem_cons_of_mem _ h4
      · simp at h
  · simp at h

/-- The trailing-parenthesized-number remover is the identity on
parenthesis-free text. -/
theorem stripTrailingParenNum_id (l : List Char) (h : '(' ∉ l) :
    stripTrailingParenNum l = l := by
  have hnomatch : ∀ r' rem : List Char, r'.Sublist l.reverse →
      parenNumRevMatch r' = some rem → False := by
    intro r' rem hsub hm
    exact h (List.mem_reverse.mp (hsub.mem (parenNumRevMatch_mem hm)))
  unfold stripTrailingParenNum
  split
  · rename_i r hr
    cases hm : parenNumRevMatch r with
    | none => rfl
    | some rem =>
      exfalso
      exact hnomatch r rem (by rw [hr]; exact List.sublist_cons_self _ _) hm
  · rename_i hr
    cases hm : parenNumRevMatch l.reverse with
    | none => simp only [hm]
    | some rem =>
      exfalso
      exact hnomatch _ rem (List.Sublist.refl _) hm

/-- The collapse scanner's output has only plain-space whitespace. -/
theorem wsOnlySpace_collapseWsAux (l : List Char) :
    ∀ b, wsOnlySpace (collapseWsAux b l) = true := by
  induction l with
  | nil => intro b; rfl
  | cons c cs ih =>
    intro b
    by_cases hc : isPySpace c
    · cases b
      · rw [collapseWsAux, if_pos hc]
        simp only [Bool.false_eq_true, if_false]
        have hrest := ih true
        simp only [wsOnlySpace, List.all_cons, Bool.and_eq_true] at hrest ⊢
        exact ⟨by decide, hrest⟩
      · rw [collapseWsAux, if_pos hc, if_pos rfl]
        exact ih true
    · rw [collapseWsAux, if_neg hc]
      simp [wsOnlySpace, List.all_cons, hc]
      simpa [wsOnlySpace] using ih false

/-- `wsOnlySpace` transfers along membership inclusion. -/
theorem wsOnlySpace_of_subset {m l : List Char}
    (hsub : ∀ c, c ∈ m → c ∈ l) (h : wsOnlySpace l = true) :
    wsOnlySpace m = true := by
  simp only [wsOnlySpace, List.all_eq_true] at h ⊢
  exact fun c hc => h c (hsub c hc)

/-- On whitespace-run-free text whose whitespace is plain spaces, the
collapse scanner is the identity (the flag demands a non-whitespace head). -/
theorem collapseWsAux_id (l : List Char) :
    ∀ b, wsOnlySpace l = true → hasWsRun l = false →
      (b = true → headWs l = false) → collapseWsAux b l = l := by
  induction l with
  | nil => intro b _ _ _; rfl
  | cons c cs ih =>
    intro b honly hrun hb
    obtain ⟨hbc, hcs⟩ := hasWsRun_cons_parts hrun
    have honly' : wsOnlySpace cs = true := by
      simp only [wsOnlySpace, List.all_cons, Bool.and_eq_true] at honly
      exact honly.2
    by_cases hc : isPySpace c
    · cases b
      · have hce : c = ' ' := by
          simp only [wsOnlySpace, List.all_cons, Bool.and_eq_true] at honly
          have := honly.1
          simpa [hc] using this
        rw [collapseWsAux, if_pos hc]
        simp only [Bool.false_eq_true, if_false]
        rw [ih true honly' hcs ?_, hce]
        intro _
        simpa [hc] using hbc
      · exact absurd (hb rfl) (by simp [headWs, hc])
    · rw [collapseWsAux, if_neg hc]
      rw [ih false honly' hcs (by simp)]

/-- `dropWhile isPySpace` never leaves a leading whitespace character. -/
theorem headWs_dropWhileWs (l : List Char) :
    headWs (l.dropWhile isPySpace) = false := by
  induction l with
  | nil => rfl
  | cons c cs ih =>
    by_cases h : isPySpace c
    · simpa [List.dropWhile_cons, h] using ih
    · simp [List.dropWhile_cons, h, headWs]

/-- `dropTrailingWs` never leaves a trailing whitespace character. -/
theorem lastWs_dropTrailingWs (l : List Char) :
    lastWs (dropTrailingWs l) = false := by
  induction l with
  | nil => rfl
  | cons c cs ih =>
    by_cases hb : (dropTrailingWs cs).isEmpty && isPySpace c
    · rw [dropTrailingWs]
      simp only [hb, if_pos]
      rfl
    · rw [dropTrailingWs]
      simp only [hb, Bool.false_eq_true, if_false]
      rw [lastWs_cons]
      by_cases he : (dropTrailingWs cs).isEmpty = true
      · rw [if_pos he]
        simpa [he] using hb
      · rw [if_neg he]
        exact ih

/-- `stripWs` output: no leading whitespace. -/
theorem headWs_stripWs (l : List Char) : headWs (stripWs l) = false := by
  unfold stripWs
  by_cases h : headWs (dropTrailingWs (l.dropWhile isPySpace)) = true
  · exact absurd (headWs_dropTrailingWs_le _ h) (by simp [headWs_dropWhileWs])
  · simpa using h

/-- A list with no leading whitespace is unchanged by `dropWhile isPySpace`. -/
theorem dropWhileWs_id (l : List Char) (h : headWs l = false) :
    l.dropWhile isPySpace = l := by
  cases l with
  | nil => rfl
  | cons c cs =>
    rw [List.dropWhile_cons, if_neg]
    simpa [headWs] using h

/-- A list with no trailing whitespace is unchanged by `dropTrailingWs`. -/
theorem dropTrailingWs_id (l : List Char) (h : lastWs l = false) :
    dropTrailingWs l = l := by
  induction l with
  | nil => rfl
  | cons c cs ih =>
    rw [lastWs_cons] at h
    cases cs with
    | nil =>
      simp only [List.isEmpty_nil, if_pos] at h
      simp [dropTrailingWs, h]
    | cons d ds =>
      simp only [List.isEmpty_cons, Bool.false_eq_true, if_false] at h
      rw [dropTrailingWs, ih h]
      simp

/-- A stripped list is unchanged by `stripWs`. -/
theorem stripWs_id (l : List Char) (h1 : headWs l = false) (h2 : lastWs l = false) :
    stripWs l = l := by
  unfold stripWs
  rw [dropWhileWs_id l h1, dropTrailingWs_id l h2]

/-- On hyphen-free input the hyphen scanner is the identity, from the empty
state, an armed state, or a space-accumulating state. -/
theorem hyRun_no_dash : ∀ l : List Char, '-' ∉ l →
    hyRun .start l = l ∧ (∀ w, hyRun (.armed w) l = w :: l) ∧
    (∀ w sp, hyRun (.sp1 w sp) l = w :: sp ++ l) := by
  intro l
  induction l with
  | nil =>
    intro _
    refine ⟨rfl, fun w => rfl, fun w sp => by simp [hyRun, hyFlush]⟩
  | cons c cs ih =>
    intro hnd
    have hc : ¬c = '-' := fun he => hnd (he ▸ List.mem_cons_self c cs)
    have hcs : '-' ∉ cs := fun hm => hnd (List.mem_cons_of_mem c hm)
    obtain ⟨ih1, ih2, ih3⟩ := ih hcs
    refine ⟨?_, ?_, ?_⟩
    · by_cases h2 : wordChar c
      · rw [hyRun, if_pos h2, ih2 c]
      · rw [hyRun, if_neg h2, ih1]
    · intro w
      by_cases h1 : isPySpace c
      · rw [hyRun, if_pos h1, ih3 w [c]]
        simp
      · by_cases h2 : wordChar c
        · rw [hyRun, if_neg h1, if_pos h2, ih2 c]
        · rw [hyRun, if_neg h1, if_neg h2, ih1]
    · intro w sp
      by_cases h1 : isPySpace c
      · rw [hyRun, if_pos h1, ih3 w (sp ++ [c])]
        simp
      · rw [hyRun, if_neg h1, if_neg hc]
        by_cases h3 : wordChar c
        · rw [if_pos h3, ih2 c]
        · rw [if_neg h3, ih1]

/-- `fixHyphens` is the identity on hyphen-free text. -/
theorem fixHyphens_id (l : List Char) (h : '-' ∉ l) : fixHyphens l = l :=
  (hyRun_no_dash l h).1

/-!
### Claim C7: idempotence of the normalizer
-/

/-- C7 counterexample: the normalizer is not idempotent.  On `a - b - c`
the hyphen rewrite consumes through `b` and leaves ` - c` untouched, so a
second application performs a further rewrite. -/
theorem clean_abstract_text_not_idempotent_cex :
    clean_abstract_text "a - b - c".toList = "a-b - c".toList ∧
    clean_abstract_text (clean_abstract_text "a - b - c".toList) = "a-b-c".toList ∧
    "a-b-c".toList ≠ "a-b - c".toList :=
  ⟨by decide, by decide, by decide⟩

/-- C7 amended: the normalizer is idempotent on text containing no
parenthesis and no hyphen — there stages 1-3 are the identity, the collapse
stage has already normalized all whitespace, the punctuation stage has
removed every whitespace-punctuation pair, and the hyphen stage never
fires.  (In general a second application can rewrite further: chained
`a - b - c` hyphen patterns, or `(Continued)` / trailing-number shapes
re-created by earlier removals, as the counterexample shows.) -/
theorem clean_abstract_text_idempotent_no_paren_hyphen (s : List Char)
    (h1 : '(' ∉ s) (h2 : '-' ∉ s) :
    clean_abstract_text (clean_abstract_text s) = clean_abstract_text s := by
  have e1 : removeContinued s = s := removeContinued_id s h1
  have e2 : removeDateCode s = s := removeDateCode_id s h1
  have e3 : stripTrailingParenNum s = s := stripTrailingParenNum_id s h1
  have hmem_cs : ∀ c, c ∈ collapseAndStrip s → c ∈ s ∨ c = ' ' := by
    intro c hc
    unfold collapseAndStrip at hc
    exact mem_collapseWsAux s false (mem_stripWs _ hc)
  set p := fixPunct (collapseAndStrip s) with hpdef
  have hsub_p : ∀ c, c ∈ p → c ∈ collapseAndStrip s := by
    intro c hc
    rw [hpdef] at hc
    unfold fixPunct at hc
    rcases mem_puRun _ [] hc with h | h
    · simp at h
    · exact h
  have hparen_p : '(' ∉ p := by
    intro hm
    rcases hmem_cs '(' (hsub_p '(' hm) with h | h
    · exact h1 h
    · exact absurd h (by decide)
  have hdash_p : '-' ∉ p := by
    intro hm
    rcases hmem_cs '-' (hsub_p '-' hm) with h | h
    · exact h2 h
    · exact absurd h (by decide)
  have e4 : fixHyphens p = p := fixHyphens_id p hdash_p
  have hclean : clean_abstract_text s = p := by
    unfold clean_abstract_text
    rw [e1, e2, e3, ← hpdef, e4]
  have honly_cs : wsOnlySpace (collapseAndStrip s) = true := by
    apply wsOnlySpace_of_subset (fun c hc => ?_) (wsOnlySpace_collapseWsAux s false)
    unfold collapseAndStrip at hc
    exact mem_stripWs _ hc
  have honly : wsOnlySpace p = true := wsOnlySpace_of_subset hsub_p honly_cs
  have hrun : hasWsRun p = false := by
    rw [hpdef]
    unfold fixPunct
    apply hasWsRun_puRun
    simpa using hasWsRun_collapseAndStrip s
  have hhead_cs : headWs (collapseAndStrip s) = false := by
    unfold collapseAndStrip
    exact headWs_stripWs _
  have hhead : headWs p = false := by
    rw [hpdef]
    exact headWs_fixPunct _ hhead_cs
  have hlast_cs : lastWs (collapseAndStrip s) = false := by
    unfold collapseAndStrip stripWs
    exact lastWs_dropTrailingWs _
  have hlast : lastWs p = false := by
    rw [hpdef]
    unfold fixPunct
    exact lastWs_puRun _ [] rfl (by simpa using hlast_cs)
  have hwsp : hasWsPunct p = false := by
    rw [hpdef]
    unfold fixPunct
    exact hasWsPunct_puRun _ [] rfl
  have f4 : collapseAndStrip p = p := by
    unfold collapseAndStrip
    rw [collapseWsAux_id p false honly hrun (by simp)]
    exact stripWs_id p hhead hlast
  have f5 : fixPunct p = p := by
    unfold fixPunct
    simpa using puRun_id p [] rfl (by simpa using hwsp)
  rw [hclean]
  unfold clean_abstract_text
  rw [removeContinued_id p hparen_p, removeDateCode_id p hparen_p,
    stripTrailingParenNum_id p hparen_p, f4, f5, e4]

/-- C7 amended witness: idempotence at a concrete paren-free, hyphen-free
string. -/
theorem clean_abstract_text_idempotent_witness :
    clean_abstract_text (clean_abstract_text "A device ,  with  parts .".toList) =
      clean_abstract_text "A device ,  with  parts .".toList :=
  clean_abstract_text_idempotent_no_paren_hyphen "A device ,  with  parts .".toList
    (by decide) (by decide)

/-!
### Two-lowercase-triple lemmas (claim C8)
-/

/-- `afterTripleOk` finds a lowercase triple preceded only by non-newline
characters. -/
theorem afterTripleOk_iff (l : List Char) :
    afterTripleOk l = true ↔
      ∃ q d e f r, l = q ++ d :: e :: f :: r ∧ (∀ x ∈ q, x ≠ '\n') ∧
        d.isLower = true ∧ e.isLower = true ∧ f.isLower = true := by
  induction l with
  | nil =>
    simp only [afterTripleOk, Bool.false_eq_true, false_iff]
    rintro ⟨q, d, e, f, r, heq, -⟩
    cases q <;> simp at heq
  | cons c cs ih =>
    constructor
    · intro h
      rw [afterTripleOk] at h
      rcases Bool.or_eq_true_iff.mp h with h1 | h1
      · cases cs with
        | nil => simp [lowerTripleHead] at h1
        | cons e cs2 =>
          cases cs2 with
          | nil => simp [lowerTripleHead] at h1
          | cons f rest =>
            simp only [lowerTripleHead, Bool.and_eq_true] at h1
            obtain ⟨⟨h1a, h1b⟩, h1c⟩ := h1
            exact ⟨[], c, e, f, rest, rfl, by simp, h1a, h1b, h1c⟩
      · simp only [Bool.and_eq_true, decide_eq_true_eq] at h1
        obtain ⟨q, d, e, f, r, heq, hq, hd, he, hf⟩ := ih.mp h1.2
        refine ⟨c :: q, d, e, f, r, by rw [List.cons_append, heq], ?_, hd, he, hf⟩
        intro x hx
        rcases List.mem_cons.mp hx with rfl | hx2
        · exact h1.1
        · exact hq x hx2
    · rintro ⟨q, d, e, f, r, heq, hq, hd, he, hf⟩
      rw [afterTripleOk]
      cases q with
      | nil =>
        simp only [List.nil_append, List.cons.injEq] at heq
        obtain ⟨rfl, rfl⟩ := heq
        apply Bool.or_eq_true_iff.mpr
        left
        simp [lowerTripleHead, hd, he, hf]
      | cons q0 qs =>
        simp only [List.cons_append, List.cons.injEq] at heq
        obtain ⟨rfl, heq2⟩ := heq
        apply Bool.or_eq_true_iff.mpr
        right
        simp only [Bool.and_eq_true, decide_eq_true_eq]
        refine ⟨hq _ (List.mem_cons_self _ _), ?_⟩
        apply ih.mpr
        exact ⟨qs, d, e, f, r, heq2, fun x hx => hq x (List.mem_cons_of_mem _ hx), hd, he, hf⟩

/-- `searchTwoTriples` finds a lowercase triple followed (after non-newline
characters) by another lowercase triple. -/
theorem searchTwoTriples_iff (l : List Char) :
    searchTwoTriples l = true ↔
      ∃ p a b c rest, l = p ++ a :: b :: c :: rest ∧
        a.isLower = true ∧ b.isLower = true ∧ c.isLower = true ∧
        afterTripleOk rest = true := by
  induction l with
  | nil =>
    simp only [searchTwoTriples, Bool.false_eq_true, false_iff]
    rintro ⟨p, a, b, c, rest, heq, -⟩
    cases p <;> simp at heq
  | cons hd tl ih =>
    cases tl with
    | nil =>
      simp only [searchTwoTriples, Bool.false_eq_true, false_iff]
      rintro ⟨p, a, b, c, rest, heq, -⟩
      have hlen := congrArg List.length heq
      simp [List.length_append] at hlen
      omega
    | cons t1 tl2 =>
      cases tl2 with
      | nil =>
        simp only [searchTwoTriples, Bool.false_eq_true, false_iff]
        rintro ⟨p, a, b, c, rest, heq, -⟩
        have hlen := congrArg List.length heq
        simp [List.length_append] at hlen
        omega
      | cons t2 tl3 =>
        constructor
        · intro h
          rw [searchTwoTriples] at h
          rcases Bool.or_eq_true_iff.mp h with h1 | h1
          · simp only [Bool.and_eq_true] at h1
            obtain ⟨⟨⟨ha, hb⟩, hc⟩, hr⟩ := h1
            exact ⟨[], hd, t1, t2, tl3, rfl, ha, hb, hc, hr⟩
          · obtain ⟨p, a, b, c, rest, heq, ha, hb, hc, hr⟩ := ih.mp h1
            exact ⟨hd :: p, a, b, c, rest, by rw [List.cons_append, heq], ha, hb, hc, hr⟩
        · rintro ⟨p, a, b, c, rest, heq, ha, hb, hc, hr⟩
          rw [searchTwoTriples]
          apply Bool.or_eq_true_iff.mpr
          cases p with
          | nil =>
            simp only [List.nil_append, List.cons.injEq] at heq
            obtain ⟨rfl, rfl, rfl, rfl⟩ := heq
            left
            simp [ha, hb, hc, hr]
          | cons p0 ps =>
            simp only [List.cons_append, List.cons.injEq] at heq
            obtain ⟨rfl, heq2⟩ := heq
            right
            exact ih.mpr ⟨ps, a, b, c, rest, heq2, ha, hb, hc, hr⟩

/-- On newline-free text, the embedded search for `[a-z]{3,}.*[a-z]{3,}`
finds exactly two non-overlapping lowercase triples. -/
theorem searchTwoTriples_iff_hasTwo (l : List Char) (hnl : '\n' ∉ l) :
    searchTwoTriples l = true ↔ HasTwoLowerTriples l := by
  rw [searchTwoTriples_iff]
  constructor
  · rintro ⟨p, a, b, c, rest, heq, ha, hb, hc, hafter⟩
    obtain ⟨q, d, e, f, r, hre, -, hd, he, hf⟩ := (afterTripleOk_iff rest).mp hafter
    exact ⟨p, q, r, a, b, c, d, e, f, by rw [heq, hre]; simp, ha, hb, hc, hd, he, hf⟩
  · rintro ⟨p, q, r, a, b, c, d, e, f, heq, ha, hb, hc, hd, he, hf⟩
    refine ⟨p, a, b, c, q ++ d :: e :: f :: r, by rw [heq]; simp, ha, hb, hc, ?_⟩
    apply (afterTripleOk_iff _).mpr
    refine ⟨q, d, e, f, r, rfl, ?_, hd, he, hf⟩
    intro x hx hxe
    apply hnl
    subst hxe
    rw [heq]
    simp [hx]

/-!
### Claim C8: the short-capitalized-phrase noise rule
-/

/-- C8 counterexample: the line `Ab cd ef` has three space-separated words,
so under the claim's conditions (at most two space-separated words) it
should not be rejected by this rule — yet the rule fires, because the code
tests `line.count(' ') <= 2` (two space characters allow three words). -/
theorem noise_short_cap_phrase_cex :
    noiseShortCapPhrase "Ab cd ef".toList = true ∧
    numSpaceSepWords "Ab cd ef".toList = 3 :=
  ⟨by decide, by decide⟩

/-- C8 amended: for every newline-free line, the short-capitalized-phrase
rule fires exactly when the line is shorter than 20 characters, contains at
most two space characters, starts with a capital letter, and does not
contain two non-overlapping runs of three consecutive lowercase letters
(a single run of six or more counts as two); and whenever the rule fires,
the classifier marks the line as noise. -/
theorem noise_short_cap_phrase_amended (l : List Char) (hnl : '\n' ∉ l) :
    (noiseShortCapPhrase l = true ↔ C8Conds l) ∧
    (noiseShortCapPhrase l = true → is_noise_line l = true) := by
  constructor
  · constructor
    · intro h
      unfold noiseShortCapPhrase at h
      simp only [Bool.and_eq_true, decide_eq_true_eq, Bool.not_eq_true'] at h
      obtain ⟨⟨⟨hlen, hcnt⟩, hcap⟩, hsearch⟩ := h
      refine ⟨hlen, hcnt, ?_, ?_⟩
      · cases l with
        | nil => simp at hcap
        | cons c cs => exact ⟨c, cs, rfl, hcap⟩
      · intro htwo
        rw [← searchTwoTriples_iff_hasTwo l hnl] at htwo
        rw [htwo] at hsearch
        exact absurd hsearch (by simp)
    · rintro ⟨hlen, hcnt, ⟨c, rest, hl, hcap⟩, hnotwo⟩
      unfold noiseShortCapPhrase
      simp only [Bool.and_eq_true, decide_eq_true_eq, Bool.not_eq_true']
      refine ⟨⟨⟨hlen, hcnt⟩, ?_⟩, ?_⟩
      · rw [hl]
        exact hcap
      · cases hse : searchTwoTriples l with
        | false => rfl
        | true =>
          exact absurd ((searchTwoTriples_iff_hasTwo l hnl).mp hse) hnotwo
  · intro h
    unfold is_noise_line
    simp [h]

/-- C8 amended witness: the amended rule applied to the concrete line
`Fig 4` (short, capitalized, one space, no two lowercase triples). -/
theorem noise_short_cap_phrase_amended_witness :
    (noiseShortCapPhrase "Fig 4".toList = true ↔ C8Conds "Fig 4".toList) ∧
    (noiseShortCapPhrase "Fig 4".toList = true → is_noise_line "Fig 4".toList = true) :=
  noise_short_cap_phrase_amended "Fig 4".toList (by decide)
